import Mathlib

/-!
Shallow embedding of the `reversi-solver` repository (src/board.rs, src/lib.rs,
src/solve.rs) together with proofs checking the natural-language specification
against the code.

Conventions of the embedding:
* Rust `usize` coordinates are `Nat`; `usize::wrapping_add_signed` is modelled by
  `wadd`, which adds over `Int` and reduces modulo `2 ^ 64` (the width of
  `usize` on the targets the crate builds for).
* Board reads (`cells[idx]`) are modelled totally with `List.getD` (default
  `Cell.empty`); a separate *checked* embedding models the panicking accesses
  exactly (`none` = panic) and is proved to agree with the total one on the
  in-bounds region, which is where the library actually evaluates them.
* `anyhow::Result` is `Except String`; the error payloads keep the source's
  message texts (format arguments are rendered the way `Display` would).
* The two `while`/`loop` constructs inside `is_valid_move` are modelled with a
  fuel parameter (`walkFuel`); the fuel is provably never exhausted from the
  on-board entry states used by `is_valid_move`.
-/

namespace Reversi

/-- Player::One / Player::Two (board.rs). -/
inductive Player where
  | one
  | two
deriving DecidableEq, Repr

/-- Player::opponent (board.rs). -/
def Player.opponent : Player → Player
  | .one => .two
  | .two => .one

/-- Cell::Empty / Cell::Player(p) (board.rs). -/
inductive Cell where
  | empty
  | player (p : Player)
deriving DecidableEq, Repr

/-- Cell::to_char (board.rs). -/
def Cell.to_char : Cell → Char
  | .empty => '-'
  | .player .one => 'X'
  | .player .two => 'O'

/-- WIDTH constant (board.rs). -/
def WIDTH : Nat := 8

/-- HEIGHT constant (board.rs). -/
def HEIGHT : Nat := 8

/-- SIZE = WIDTH * HEIGHT (board.rs). -/
def SIZE : Nat := WIDTH * HEIGHT

/-- at_pos (board.rs): linear index of a coordinate pair. -/
def at_pos (x y : Nat) : Nat := x + y * WIDTH

/-- Board (board.rs): a fixed array of SIZE cells, modelled as a length-64 list. -/
def Board := { l : List Cell // l.length = SIZE }

instance : DecidableEq Board := fun a b =>
  decidable_of_iff (a.val = b.val) Subtype.ext_iff.symm

/-- Board::new (board.rs): all cells empty. -/
def Board.new : Board := ⟨List.replicate SIZE Cell.empty, by simp⟩

/-- Board::get_cell_idx (board.rs); modelled totally, the checked variant below
models the panic on an out-of-range index. -/
def Board.get_cell_idx (b : Board) (idx : Nat) : Cell := b.val.getD idx Cell.empty

/-- Board::get_cell (board.rs). -/
def Board.get_cell (b : Board) (x y : Nat) : Cell := b.get_cell_idx (at_pos x y)

/-- Board::set_cell_idx (board.rs); `List.set` is a no-op out of range, while the
source panics there; all writes performed by the library are proved in-bounds. -/
def Board.set_cell_idx (b : Board) (idx : Nat) (c : Cell) : Board :=
  ⟨b.val.set idx c, by rw [List.length_set]; exact b.prop⟩

/-- Board::set_cell (board.rs). -/
def Board.set_cell (b : Board) (x y : Nat) (c : Cell) : Board :=
  b.set_cell_idx (at_pos x y) c

/-- Board::on_board (board.rs): `x < WIDTH && y < HEIGHT`. -/
def Board.on_board (_ : Board) (x y : Nat) : Prop := x < WIDTH ∧ y < HEIGHT

instance (b : Board) (x y : Nat) : Decidable (b.on_board x y) :=
  inferInstanceAs (Decidable (_ ∧ _))

/-- Board::total_moves (board.rs): number of non-empty cells. -/
def Board.total_moves (b : Board) : Nat :=
  (b.val.filter (fun cell => cell ≠ Cell.empty)).length

/-- Game (lib.rs): a board plus the current player. -/
structure Game where
  board : Board
  current_player : Player
deriving DecidableEq

/-- The `directions` array inside Game::is_valid_move (lib.rs). -/
def directions : List (Int × Int) :=
  [(0, 1), (1, 1), (1, 0), (1, -1), (0, -1), (-1, -1), (-1, 0), (-1, 1)]

/-- usize::wrapping_add_signed (used in lib.rs): wraparound addition modulo 2^64. -/
def wadd (x : Nat) (d : Int) : Nat := (((x : Int) + d) % (2 : Int) ^ 64).toNat

/-- usize::checked_add_signed(..).unwrap() going backwards (lib.rs line 132-133),
modelled totally with `Int.toNat`; the checked variant models the panic. -/
def stepBack (x : Nat) (d : Int) : Nat := ((x : Int) + (-d)).toNat

/-- Fuel bound for the two loops in Game::is_valid_move; proved sufficient for
every entry state those loops are reached with. -/
def walkFuel : Nat := 32

/-- The `while get_cell == opposing` walk in Game::is_valid_move (lib.rs lines
117-124): keeps stepping in direction (dx, dy) while the cell holds the
opposing tile, stopping as soon as the next step leaves the board. -/
def walkOpp (b : Board) (opp : Cell) (dx dy : Int) : Nat → Nat → Nat → Nat × Nat
  | 0, x, y => (x, y)
  | fuel + 1, x, y =>
    if b.get_cell x y = opp then
      let x' := wadd x dx
      let y' := wadd y dy
      if b.on_board x' y' then walkOpp b opp dx dy fuel x' y' else (x', y')
    else (x, y)

/-- The backtracking `loop` in Game::is_valid_move (lib.rs lines 131-140):
steps back towards the origin, pushing each strictly intermediate index. -/
def backtrack (x_init y_init : Nat) (dx dy : Int) : Nat → Nat → Nat → List Nat
  | 0, _, _ => []
  | fuel + 1, x, y =>
    let x' := stepBack x dx
    let y' := stepBack y dy
    if x' = x_init ∧ y' = y_init then []
    else at_pos x' y' :: backtrack x_init y_init dx dy fuel x' y'

/-- The body of the `for (x_dir, y_dir) in directions` loop in
Game::is_valid_move (lib.rs lines 99-142): the flip candidates contributed by
one direction. -/
def dirFlips (b : Board) (cur : Player) (x_init y_init : Nat) (dx dy : Int) :
    List Nat :=
  let opp := Cell.player cur.opponent
  let x := wadd x_init dx
  let y := wadd y_init dy
  if ¬ b.on_board x y ∨ b.get_cell x y ≠ opp then []
  else
    let x2 := wadd x dx
    let y2 := wadd y dy
    if ¬ b.on_board x2 y2 then []
    else
      let e := walkOpp b opp dx dy walkFuel x2 y2
      if ¬ b.on_board e.1 e.2 then []
      else if b.get_cell e.1 e.2 = Cell.player cur then
        backtrack x_init y_init dx dy walkFuel e.1 e.2
      else []

/-- Game::is_valid_move (lib.rs lines 77-149): `some flips` when the candidate
cell is empty and at least one direction contributes flips, `none` otherwise. -/
def Game.is_valid_move (g : Game) (x_init y_init : Nat) : Option (List Nat) :=
  let cell := g.board.get_cell x_init y_init
  if cell ≠ Cell.empty then none
  else
    let tiles_to_flip :=
      directions.flatMap fun d => dirFlips g.board g.current_player x_init y_init d.1 d.2
    if tiles_to_flip.isEmpty then none else some tiles_to_flip

/-- Game::moves (lib.rs lines 21-34): all legal target indices, produced by the
source's loop nest `for x in 0..WIDTH { for y in 0..HEIGHT { .. } }`. -/
def Game.moves (g : Game) : List Nat :=
  (List.range WIDTH).flatMap fun x =>
    (List.range HEIGHT).filterMap fun y =>
      if (g.is_valid_move x y).isSome then some (at_pos x y) else none

/-- Game::swap_players (lib.rs). -/
def Game.swap_players (g : Game) : Game :=
  { g with current_player := g.current_player.opponent }

/-- Game::winning_player (lib.rs lines 40-61): strict majority of tiles, `none`
on a tie. -/
def Game.winning_player (g : Game) : Option Player :=
  let cells :=
    (List.range WIDTH).flatMap fun x => (List.range HEIGHT).map fun y => g.board.get_cell x y
  let player_one_count := cells.count (Cell.player Player.one)
  let player_two_count := cells.count (Cell.player Player.two)
  if player_one_count > player_two_count then some Player.one
  else if player_two_count > player_one_count then some Player.two
  else none

/-- Game::new (lib.rs lines 151-164): canonical opening, Player One to move. -/
def Game.new : Game :=
  let board := Board.new
  let board := board.set_cell 3 3 (Cell.player Player.one)
  let board := board.set_cell 4 4 (Cell.player Player.one)
  let board := board.set_cell 3 4 (Cell.player Player.two)
  let board := board.set_cell 4 3 (Cell.player Player.two)
  { board := board, current_player := Player.one }

/-- Game::play_idx (lib.rs lines 166-177): validity check, then write the placed
tile and every flip, then advance the player. Errors leave the game unchanged
(the embedding returns no game at all on error). -/
def Game.play_idx (g : Game) (index : Nat) : Except String Game :=
  match g.is_valid_move (index % WIDTH) (index / WIDTH) with
  | none => .error "Invalid move"
  | some move_set =>
    let board := g.board.set_cell_idx index (Cell.player g.current_player)
    let board := move_set.foldl
      (fun b idx => b.set_cell_idx idx (Cell.player g.current_player)) board
    .ok { board := board, current_player := g.current_player.opponent }

/-- Game::play (lib.rs lines 179-181). -/
def Game.play (g : Game) (x y : Nat) : Except String Game := g.play_idx (at_pos x y)

/-- Game::is_winning_move (lib.rs lines 63-69). -/
def Game.is_winning_move (g : Game) (x y : Nat) (player : Player) :
    Except String Bool := do
  let new_game ← g.play x y
  pure (decide (new_game.winning_player = some player) && new_game.moves.isEmpty)

/-- Game::is_winning_move_idx (lib.rs lines 71-75). -/
def Game.is_winning_move_idx (g : Game) (index : Nat) (player : Player) :
    Except String Bool :=
  g.is_winning_move (index % WIDTH) (index / WIDTH) player

/-- Modelled from the spec: solve.rs calls `game.total_moves()`, but src/ defines
no such method on Game (only Board::total_moves exists, and Game neither derefs
to Board nor declares the method). The spec's §4.1 `total_occupied()` counts
non-empty cells, which is exactly Board::total_moves, so the call is modelled as
delegation to the game's board. -/
def Game.total_moves (g : Game) : Nat := g.board.total_moves

/-! ### Solver (solve.rs) -/

/-- The immediate-win `for` loop in negamax (solve.rs lines 11-15): stops at the
first legal move that is winning for the current player, propagating the first
error the way the `?` operator does. -/
def winCheck (g : Game) : List Nat → Except String Bool
  | [] => .ok false
  | m :: rest =>
    match g.is_winning_move_idx m g.current_player with
    | .error e => .error e
    | .ok true => .ok true
    | .ok false => winCheck g rest

/-- The score-maximising `for` loop in negamax (solve.rs lines 17-29), with the
recursive call abstracted as `rec`; `none` signals fuel exhaustion inside a
recursive call. -/
def bestLoop (rec : Game → Option (Except String Int)) (g : Game) :
    List Nat → Int → Option (Except String Int)
  | [], best_score => some (.ok best_score)
  | m :: rest, best_score =>
    match g.play_idx m with
    | .error e => some (.error e)
    | .ok new_game =>
      match rec new_game with
      | none => none
      | some (.error e) => some (.error e)
      | some (.ok v) =>
        let score := -v
        bestLoop rec g rest (if score > best_score then score else best_score)

/-- negamax (solve.rs lines 4-32) with an explicit fuel bound on the recursion
depth; `none` means the fuel ran out. The fuel is proved sufficient whenever it
exceeds the number of empty cells. -/
def negamaxFuel : Nat → Game → Option (Except String Int)
  | 0, _ => none
  | fuel + 1, g =>
    let moves := g.moves
    if moves.isEmpty then some (.ok 0)
    else
      match winCheck g moves with
      | .error e => some (.error e)
      | .ok true => some (.ok (((SIZE : Int) + 1 - (g.total_moves : Int)).tdiv 2))
      | .ok false => bestLoop (negamaxFuel fuel) g moves (-(SIZE : Int))

/-- negamax (solve.rs): run with fuel SIZE + 1, which always suffices since each
recursive call strictly increases the number of occupied cells. The default is
unreachable. -/
def negamax (g : Game) : Except String Int :=
  (negamaxFuel (SIZE + 1) g).getD (.error "out of fuel")

/-- solve (solve.rs lines 35-43): one (score, move) pair per legal root move;
`none` models a panic of one of the two `unwrap()` calls (proved unreachable). -/
def solve (g : Game) : Option (List (Int × Nat)) :=
  g.moves.mapM fun possible_move => do
    let new_game ← (g.play_idx possible_move).toOption
    let score ← (negamax new_game).toOption
    pure (score, possible_move)

/-! ### Textual serialization (lib.rs: from_string and Display) -/

/-- The inner `for (x, character) in row.chars().enumerate()` loop of
Game::from_string (lib.rs lines 195-212), processing the remaining characters
of one row starting at column x: writes X, O and dash cells, records the
positions of * markers. -/
def parseRow (b : Board) (recorded : List Nat) (y : Nat) :
    Nat → List Char → Except String (Board × List Nat)
  | _, [] => .ok (b, recorded)
  | x, character :: rest =>
    if x ≥ WIDTH then .error "Too many columns"
    else if character = 'X' then
      parseRow (b.set_cell x y (Cell.player Player.one)) recorded y (x + 1) rest
    else if character = 'O' then
      parseRow (b.set_cell x y (Cell.player Player.two)) recorded y (x + 1) rest
    else if character = '*' then
      parseRow b (recorded ++ [at_pos x y]) y (x + 1) rest
    else if character = '-' then
      parseRow (b.set_cell x y Cell.empty) recorded y (x + 1) rest
    else .error ("Invalid character: " ++ character.toString)

/-- The outer `for (y, row) in rows.enumerate()` loop of Game::from_string
(lib.rs lines 190-213), processing the remaining rows starting at row y. -/
def parseRows (b : Board) (recorded : List Nat) :
    Nat → List (List Char) → Except String (Board × List Nat)
  | _, [] => .ok (b, recorded)
  | y, row :: rest =>
    if y ≥ HEIGHT then .error "Too many rows"
    else
      match parseRow b recorded y 0 row with
      | .error e => .error e
      | .ok (b2, rec2) => parseRows b2 rec2 (y + 1) rest

/-- Game::from_string (lib.rs lines 183-229). The `rows` argument models the
source's `string.split` at the line-break character — the input text already
cut into lines, each row a list of characters. Starts from Game::new's board, overlays the grid, then (if
requested) validates the recorded `*` markers against the recomputed move set,
comparing both sorted. -/
def Game.from_string (rows : List (List Char)) (player : Player) (validate : Bool) :
    Except String Game :=
  match parseRows Game.new.board [] 0 rows with
  | .error e => .error e
  | .ok (b, recorded_possible_moves) =>
    let game : Game := { board := b, current_player := player }
    if validate then
      let moves := game.moves.insertionSort (· ≤ ·)
      let recorded := recorded_possible_moves.insertionSort (· ≤ ·)
      if moves ≠ recorded then .error "real != recorded moves" else .ok game
    else .ok game

/-- The grid part of `impl Display for Game` (lib.rs lines 236-249): one row of
characters per board row, `*` at currently legal moves, `Cell::to_char`
elsewhere. -/
def displayGrid (g : Game) : List (List Char) :=
  let moves := g.moves
  (List.range HEIGHT).map fun y =>
    (List.range WIDTH).map fun x =>
      if at_pos x y ∈ moves then '*' else (g.board.get_cell x y).to_char

/-- The full `impl Display for Game` output (lib.rs lines 232-253), cut at line
breaks: the `Current player: _` header line, then the grid rows, then the empty
line produced by the final writeln's trailing line break. -/
def displayLines (g : Game) : List (List Char) :=
  ("Current player: ".toList ++ [(Cell.player g.current_player).to_char]) ::
    (displayGrid g ++ [[]])

/-! ### Generic instances and basic lemmas -/

instance {ε α : Type} [DecidableEq ε] [DecidableEq α] : DecidableEq (Except ε α) :=
  fun a b =>
    match a, b with
    | .error e, .error f => decidable_of_iff (e = f) (by simp)
    | .ok x, .ok y => decidable_of_iff (x = y) (by simp)
    | .error _, .ok _ => .isFalse (by simp)
    | .ok _, .error _ => .isFalse (by simp)

theorem WIDTH_eq : WIDTH = 8 := rfl

theorem HEIGHT_eq : HEIGHT = 8 := rfl

theorem SIZE_eq : SIZE = 64 := rfl

theorem at_pos_lt {x y : Nat} (hx : x < WIDTH) (hy : y < HEIGHT) :
    at_pos x y < SIZE := by
  simp only [at_pos, WIDTH, HEIGHT, SIZE] at *; omega

theorem at_pos_mod {x y : Nat} (hx : x < WIDTH) : at_pos x y % WIDTH = x := by
  simp only [at_pos, WIDTH] at *; omega

theorem at_pos_div {x y : Nat} (hx : x < WIDTH) : at_pos x y / WIDTH = y := by
  simp only [at_pos, WIDTH] at *; omega

theorem at_pos_self (i : Nat) : at_pos (i % WIDTH) (i / WIDTH) = i := by
  simp only [at_pos, WIDTH]; omega

theorem at_pos_inj {x y u v : Nat} (hx : x < WIDTH) (hu : u < WIDTH)
    (h : at_pos x y = at_pos u v) : x = u ∧ y = v := by
  simp only [at_pos, WIDTH] at *; omega

theorem Board.length_val (b : Board) : b.val.length = SIZE := b.prop

/-- Membership in Game::moves: exactly the on-board coordinates whose validity
check yields a flip set. -/
theorem Game.mem_moves {g : Game} {i : Nat} :
    i ∈ g.moves ↔
      ∃ x y, x < WIDTH ∧ y < HEIGHT ∧ i = at_pos x y ∧
        (g.is_valid_move x y).isSome := by
  simp only [Game.moves, List.mem_flatMap, List.mem_filterMap, List.mem_range]
  constructor
  · rintro ⟨x, hx, y, hy, hsome⟩
    split at hsome
    · exact ⟨x, y, hx, hy, (Option.some_inj.mp hsome).symm, by assumption⟩
    · exact absurd hsome (by simp)
  · rintro ⟨x, y, hx, hy, rfl, hv⟩
    exact ⟨x, hx, y, hy, by simp [hv]⟩

theorem Game.mem_moves_idx {g : Game} {i : Nat} :
    i ∈ g.moves ↔
      i < SIZE ∧ (g.is_valid_move (i % WIDTH) (i / WIDTH)).isSome := by
  rw [Game.mem_moves]
  constructor
  · rintro ⟨x, y, hx, hy, rfl, hv⟩
    rw [at_pos_mod hx, at_pos_div hx]
    exact ⟨at_pos_lt hx hy, hv⟩
  · rintro ⟨hi, hv⟩
    refine ⟨i % WIDTH, i / WIDTH, ?_, ?_, (at_pos_self i).symm, hv⟩
    · simp only [WIDTH]; omega
    · simp only [WIDTH, HEIGHT, SIZE] at *; omega

theorem Game.mem_moves_lt {g : Game} {i : Nat} (h : i ∈ g.moves) : i < SIZE :=
  (Game.mem_moves_idx.mp h).1

/-! ### Ray analysis of the direction walk inside is_valid_move

Specification-side view of the loops: starting from the candidate cell
(x0, y0), step `j` of direction (dx, dy) sits at integer coordinates
(x0 + j·dx, y0 + j·dy). The lemmas below characterise `walkOpp` and
`backtrack` in terms of this ray. -/

/-- Integer coordinate of step j on a ray: start plus j times the direction
component. Used for both coordinates. -/
def ray (p : Nat) (d : Int) (j : Nat) : Int := (p : Int) + (j : Int) * d

/-- Step j of the ray has both coordinates on the board. -/
def rayOn (x0 y0 : Nat) (dx dy : Int) (j : Nat) : Prop :=
  0 ≤ ray x0 dx j ∧ ray x0 dx j < 8 ∧ 0 ≤ ray y0 dy j ∧ ray y0 dy j < 8

/-- Cell under step j of the ray. -/
def rayCell (b : Board) (x0 y0 : Nat) (dx dy : Int) (j : Nat) : Cell :=
  b.get_cell (ray x0 dx j).toNat (ray y0 dy j).toNat

/-- Shape of the members of the `directions` array: unit components, not both
zero. -/
def dirOK (dx dy : Int) : Prop :=
  (dx = -1 ∨ dx = 0 ∨ dx = 1) ∧ (dy = -1 ∨ dy = 0 ∨ dy = 1) ∧ ¬(dx = 0 ∧ dy = 0)

theorem dirOK_of_mem {dx dy : Int} (h : (dx, dy) ∈ directions) : dirOK dx dy := by
  fin_cases h <;> simp [dirOK]

/-- Number of on-board steps remaining in one coordinate before leaving the
board: a termination measure for the opp-walk. -/
def dm (d : Int) (x : Nat) : Nat := if d = 1 then 8 - x else if d = -1 then x + 1 else 0

theorem dm_le {d : Int} {x : Nat} (hx : x < 8) : dm d x ≤ 8 := by
  unfold dm; split <;> [omega; (split <;> omega)]

theorem wadd_genuine {x : Nat} {d : Int} (h0 : 0 ≤ (x : Int) + d)
    (h1 : (x : Int) + d < 2 ^ 64) : ((wadd x d : Nat) : Int) = (x : Int) + d := by
  unfold wadd
  rw [Int.emod_eq_of_lt h0 h1, Int.toNat_of_nonneg h0]

theorem wadd_wrap {x : Nat} {d : Int} (h : (x : Int) + d = -1) :
    wadd x d = 2 ^ 64 - 1 := by
  unfold wadd
  rw [h]
  decide

/-- One wrapping step along a ray coordinate, from an on-board position: either
the integer ray coordinate stays nonnegative and `wadd` lands exactly on it, or
it goes to -1 and `wadd` wraps to the top of the usize range. -/
theorem wadd_step {x0 : Nat} {dx : Int} {j : Nat} {x : Nat}
    (hdx : dx = -1 ∨ dx = 0 ∨ dx = 1) (hx : (x : Int) = ray x0 dx j)
    (hxb : x < 8) :
    (0 ≤ ray x0 dx (j + 1) ∧ ((wadd x dx : Nat) : Int) = ray x0 dx (j + 1)) ∨
    (ray x0 dx (j + 1) < 0 ∧ wadd x dx = 2 ^ 64 - 1) := by
  have hray : ray x0 dx (j + 1) = ray x0 dx j + dx := by
    unfold ray; push_cast; ring
  rcases hdx with rfl | rfl | rfl
  · by_cases hx0 : x = 0
    · right
      subst hx0
      constructor
      · omega
      · exact wadd_wrap (by omega)
    · left
      have h0 : 0 ≤ (x : Int) + (-1) := by omega
      constructor
      · omega
      · rw [wadd_genuine h0 (by omega)]; omega
  · left
    have h0 : 0 ≤ (x : Int) + 0 := by omega
    constructor
    · omega
    · rw [wadd_genuine h0 (by norm_num; omega)]; omega
  · left
    have h0 : 0 ≤ (x : Int) + 1 := by omega
    constructor
    · omega
    · rw [wadd_genuine h0 (by norm_num; omega)]; omega

theorem on_board_iff {b : Board} {x y : Nat} :
    b.on_board x y ↔ x < 8 ∧ y < 8 := Iff.rfl

theorem rayOn_of_coords {x0 y0 : Nat} {dx dy : Int} {j : Nat} {x y : Nat}
    (hx : (x : Int) = ray x0 dx j) (hy : (y : Int) = ray y0 dy j)
    (hxb : x < 8) (hyb : y < 8) : rayOn x0 y0 dx dy j := by
  refine ⟨?_, ?_, ?_, ?_⟩ <;> omega

theorem rayCell_of_coords {b : Board} {x0 y0 : Nat} {dx dy : Int} {j : Nat}
    {x y : Nat} (hx : (x : Int) = ray x0 dx j) (hy : (y : Int) = ray y0 dy j) :
    rayCell b x0 y0 dx dy j = b.get_cell x y := by
  unfold rayCell
  rw [← hx, ← hy]
  simp

theorem dm_pos {dx dy : Int} (hdir : dirOK dx dy) {x y : Nat}
    (hxb : x < 8) (hyb : y < 8) : 1 ≤ dm dx x + dm dy y := by
  obtain ⟨hdx, hdy, hnz⟩ := hdir
  rcases hdx with rfl | rfl | rfl <;> rcases hdy with rfl | rfl | rfl <;>
    simp_all [dm] <;> omega

theorem dm_decrease {dx dy : Int} (hdir : dirOK dx dy) {x y x' y' : Nat}
    (hx' : (x' : Int) = (x : Int) + dx) (hy' : (y' : Int) = (y : Int) + dy)
    (hxb : x < 8) (hyb : y < 8) (hx'b : x' < 8) (hy'b : y' < 8) :
    dm dx x' + dm dy y' < dm dx x + dm dy y := by
  obtain ⟨hdx, hdy, hnz⟩ := hdir
  rcases hdx with rfl | rfl | rfl <;> rcases hdy with rfl | rfl | rfl <;>
    simp_all [dm] <;> omega

/-- Master characterisation of the opp-walk (the `while` loop of
Game::is_valid_move): started on the board at ray step j with enough fuel, it
crosses a run of opposing cells along the ray and either stops on the board at
the first non-opposing ray cell, or walks off the board. -/
theorem walkOpp_spec (b : Board) (opp : Cell) {dx dy : Int} (hdir : dirOK dx dy)
    (x0 y0 : Nat) :
    ∀ (fuel j x y : Nat), (x : Int) = ray x0 dx j → (y : Int) = ray y0 dy j →
      x < 8 → y < 8 → dm dx x + dm dy y < fuel →
      ∃ k, j ≤ k ∧ k ≤ j + (dm dx x + dm dy y) ∧
        (∀ m, j ≤ m → m < k →
          rayOn x0 y0 dx dy m ∧ rayCell b x0 y0 dx dy m = opp) ∧
        ((rayOn x0 y0 dx dy k ∧ rayCell b x0 y0 dx dy k ≠ opp ∧
            walkOpp b opp dx dy fuel x y =
              ((ray x0 dx k).toNat, (ray y0 dy k).toNat)) ∨
          (¬ rayOn x0 y0 dx dy k ∧
            ¬ b.on_board (walkOpp b opp dx dy fuel x y).1
                (walkOpp b opp dx dy fuel x y).2)) := by
  intro fuel
  induction fuel with
  | zero => intro j x y _ _ _ _ hfuel; omega
  | succ fuel ih =>
    intro j x y hx hy hxb hyb hfuel
    by_cases hget : b.get_cell x y = opp
    · by_cases hob : b.on_board (wadd x dx) (wadd y dy)
      · -- the walk recurses one step further along the ray
        have hx'b : wadd x dx < 8 := hob.1
        have hy'b : wadd y dy < 8 := hob.2
        have hxstep := wadd_step hdir.1 hx hxb
        have hystep := wadd_step hdir.2.1 hy hyb
        rcases hxstep with ⟨hx0, hx'⟩ | ⟨_, hwrap⟩
        swap
        · exfalso; rw [hwrap] at hx'b; norm_num at hx'b
        rcases hystep with ⟨hy0, hy'⟩ | ⟨_, hwrap⟩
        swap
        · exfalso; rw [hwrap] at hy'b; norm_num at hy'b
        have hdm : dm dx (wadd x dx) + dm dy (wadd y dy) <
            dm dx x + dm dy y := by
          refine dm_decrease hdir ?_ ?_ hxb hyb hx'b hy'b
          · rw [hx', hx]; unfold ray; push_cast; ring
          · rw [hy', hy]; unfold ray; push_cast; ring
        obtain ⟨k, hk1, hk2, hrun, hres⟩ :=
          ih (j + 1) (wadd x dx) (wadd y dy) hx' hy' hx'b hy'b (by omega)
        have hwalk : walkOpp b opp dx dy (fuel + 1) x y =
            walkOpp b opp dx dy fuel (wadd x dx) (wadd y dy) := by
          simp only [walkOpp]
          rw [if_pos hget, if_pos hob]
        refine ⟨k, by omega, by omega, ?_, ?_⟩
        · intro m hm1 hm2
          rcases Nat.eq_or_lt_of_le hm1 with rfl | hm1'
          · exact ⟨rayOn_of_coords hx hy hxb hyb,
              (rayCell_of_coords hx hy).trans hget⟩
          · exact hrun m hm1' hm2
        · rw [hwalk]; exact hres
      · -- the next step leaves the board: the walk stops there
        have hwalk : walkOpp b opp dx dy (fuel + 1) x y = (wadd x dx, wadd y dy) := by
          simp only [walkOpp]
          rw [if_pos hget, if_neg hob]
        refine ⟨j + 1, by omega, ?_, ?_, Or.inr ⟨?_, ?_⟩⟩
        · have := dm_pos hdir hxb hyb; omega
        · intro m hm1 hm2
          have hmj : m = j := by omega
          subst hmj
          exact ⟨rayOn_of_coords hx hy hxb hyb,
            (rayCell_of_coords hx hy).trans hget⟩
        · intro hon
          apply hob
          obtain ⟨hona, honb, honc, hond⟩ := hon
          have hxstep := wadd_step hdir.1 hx hxb
          have hystep := wadd_step hdir.2.1 hy hyb
          rcases hxstep with ⟨hx0, hx'⟩ | ⟨hneg, _⟩
          swap
          · omega
          rcases hystep with ⟨hy0, hy'⟩ | ⟨hneg, _⟩
          swap
          · omega
          exact ⟨(by omega : wadd x dx < 8), (by omega : wadd y dy < 8)⟩
        · rw [hwalk]; exact hob
    · -- the cell under the walk is not an opposing tile: stop here
      have hwalk : walkOpp b opp dx dy (fuel + 1) x y = (x, y) := by
        simp only [walkOpp]
        rw [if_neg hget]
      refine ⟨j, le_rfl, by omega, by omega, Or.inl ⟨?_, ?_, ?_⟩⟩
      · exact rayOn_of_coords hx hy hxb hyb
      · rw [rayCell_of_coords hx hy]; exact hget
      · rw [hwalk, ← hx, ← hy]; simp

/-- Characterisation of the backtracking loop of Game::is_valid_move: entered
at ray step j ≥ 1 whose strictly earlier steps are all on the board, it emits
the indices of steps j-1, j-2, …, 1 and stops exactly upon reaching the origin,
never stepping to a negative coordinate. -/
theorem backtrack_spec {x0 y0 : Nat} {dx dy : Int} (hdir : dirOK dx dy) :
    ∀ (j fuel x y : Nat), 1 ≤ j → j ≤ fuel →
      (x : Int) = ray x0 dx j → (y : Int) = ray y0 dy j →
      (∀ m, 1 ≤ m → m < j → rayOn x0 y0 dx dy m) →
      backtrack x0 y0 dx dy fuel x y =
        (List.range (j - 1)).map fun t =>
          at_pos (ray x0 dx (j - 1 - t)).toNat (ray y0 dy (j - 1 - t)).toNat := by
  intro j
  induction j with
  | zero => intro fuel x y h1; omega
  | succ j' ih =>
    intro fuel x y _ hfuel hx hy hrun
    obtain ⟨f, rfl⟩ : ∃ f, fuel = f + 1 := ⟨fuel - 1, by omega⟩
    have hxd : (x : Int) + (-dx) = ray x0 dx j' := by
      rw [hx]; unfold ray; push_cast; ring
    have hyd : (y : Int) + (-dy) = ray y0 dy j' := by
      rw [hy]; unfold ray; push_cast; ring
    by_cases hj' : j' = 0
    · -- the step back reaches the origin immediately: emit nothing
      subst hj'
      have hx' : stepBack x dx = x0 := by
        unfold stepBack
        rw [hxd]
        unfold ray
        simp
      have hy' : stepBack y dy = y0 := by
        unfold stepBack
        rw [hyd]
        unfold ray
        simp
      simp only [backtrack]
      rw [if_pos ⟨hx', hy'⟩]
      simp
    · -- emit the index of step j' and keep walking back
      have hj'1 : 1 ≤ j' := by omega
      obtain ⟨hona, honb, honc, hond⟩ := hrun j' hj'1 (by omega)
      have hx' : (stepBack x dx : Int) = ray x0 dx j' := by
        unfold stepBack
        rw [hxd, Int.toNat_of_nonneg hona]
      have hy' : (stepBack y dy : Int) = ray y0 dy j' := by
        unfold stepBack
        rw [hyd, Int.toNat_of_nonneg honc]
      have hnotorig : ¬ (stepBack x dx = x0 ∧ stepBack y dy = y0) := by
        rintro ⟨he1, he2⟩
        rw [he1] at hx'
        rw [he2] at hy'
        unfold ray at hx' hy'
        have hdx0 : (j' : Int) * dx = 0 := by omega
        have hdy0 : (j' : Int) * dy = 0 := by omega
        have hj'ne : (j' : Int) ≠ 0 := by omega
        exact hdir.2.2 ⟨by
            rcases mul_eq_zero.mp hdx0 with h | h
            · exact absurd h hj'ne
            · exact h, by
            rcases mul_eq_zero.mp hdy0 with h | h
            · exact absurd h hj'ne
            · exact h⟩
      simp only [backtrack]
      rw [if_neg hnotorig]
      rw [ih f (stepBack x dx) (stepBack y dy) hj'1 (by omega) hx' hy'
        (fun m hm1 hm2 => hrun m hm1 (by omega))]
      have hhead : at_pos (stepBack x dx) (stepBack y dy) =
          at_pos (ray x0 dx j').toNat (ray y0 dy j').toNat := by
        have e1 : stepBack x dx = (ray x0 dx j').toNat := by
          have := congrArg Int.toNat hx'
          simpa using this
        have e2 : stepBack y dy = (ray y0 dy j').toNat := by
          have := congrArg Int.toNat hy'
          simpa using this
        rw [e1, e2]
      rw [hhead]
      obtain ⟨p, rfl⟩ : ∃ p, j' = p + 1 := ⟨j' - 1, by omega⟩
      have hs1 : p + 1 + 1 - 1 = p + 1 := by omega
      have hs2 : p + 1 - 1 = p := by omega
      rw [hs1, hs2, List.range_succ_eq_map, List.map_cons, List.map_map]
      have hh : p + 1 - 0 = p + 1 := by omega
      rw [hh]
      congr 1
      apply List.map_congr_left
      intro t _
      simp only [Function.comp]
      have harg : p + 1 - Nat.succ t = p - t := by omega
      rw [harg]

/-- Characterisation of one direction's contribution in Game::is_valid_move:
either it contributes nothing, or there is a sandwich — a run of opposing
cells at ray steps 1, …, K-1 closed by the mover's own tile at step K, all on
the board — and the contribution is exactly the indices of steps K-1 down
to 1. -/
theorem dirFlips_spec (b : Board) (cur : Player) {x0 y0 : Nat} {dx dy : Int}
    (hdir : dirOK dx dy) (hx0 : x0 < 8) (hy0 : y0 < 8) :
    dirFlips b cur x0 y0 dx dy = [] ∨
    ∃ K, 2 ≤ K ∧
      (∀ m, 1 ≤ m → m < K → rayOn x0 y0 dx dy m ∧
        rayCell b x0 y0 dx dy m = Cell.player cur.opponent) ∧
      rayOn x0 y0 dx dy K ∧ rayCell b x0 y0 dx dy K = Cell.player cur ∧
      dirFlips b cur x0 y0 dx dy =
        (List.range (K - 1)).map fun t =>
          at_pos (ray x0 dx (K - 1 - t)).toNat (ray y0 dy (K - 1 - t)).toNat := by
  have hx00 : ((x0 : Nat) : Int) = ray x0 dx 0 := by unfold ray; simp
  have hy00 : ((y0 : Nat) : Int) = ray y0 dy 0 := by unfold ray; simp
  by_cases hc1 : ¬ b.on_board (wadd x0 dx) (wadd y0 dy) ∨
      b.get_cell (wadd x0 dx) (wadd y0 dy) ≠ Cell.player cur.opponent
  · left
    simp only [dirFlips]
    rw [if_pos hc1]
  push_neg at hc1
  obtain ⟨hob1, hcell1⟩ := hc1
  have hx1b : wadd x0 dx < 8 := hob1.1
  have hy1b : wadd y0 dy < 8 := hob1.2
  have hx1 : ((wadd x0 dx : Nat) : Int) = ray x0 dx 1 := by
    rcases wadd_step hdir.1 hx00 hx0 with ⟨_, h⟩ | ⟨_, h⟩
    · exact h
    · rw [h] at hx1b; norm_num at hx1b
  have hy1 : ((wadd y0 dy : Nat) : Int) = ray y0 dy 1 := by
    rcases wadd_step hdir.2.1 hy00 hy0 with ⟨_, h⟩ | ⟨_, h⟩
    · exact h
    · rw [h] at hy1b; norm_num at hy1b
  have hray1 : rayOn x0 y0 dx dy 1 := rayOn_of_coords hx1 hy1 hx1b hy1b
  have hcell1' : rayCell b x0 y0 dx dy 1 = Cell.player cur.opponent :=
    (rayCell_of_coords hx1 hy1).trans hcell1
  by_cases hc2 : ¬ b.on_board (wadd (wadd x0 dx) dx) (wadd (wadd y0 dy) dy)
  · left
    simp only [dirFlips]
    rw [if_neg (by push_neg; exact ⟨hob1, hcell1⟩), if_pos hc2]
  push_neg at hc2
  have hx2b : wadd (wadd x0 dx) dx < 8 := hc2.1
  have hy2b : wadd (wadd y0 dy) dy < 8 := hc2.2
  have hx2 : ((wadd (wadd x0 dx) dx : Nat) : Int) = ray x0 dx 2 := by
    rcases wadd_step hdir.1 hx1 hx1b with ⟨_, h⟩ | ⟨_, h⟩
    · exact h
    · rw [h] at hx2b; norm_num at hx2b
  have hy2 : ((wadd (wadd y0 dy) dy : Nat) : Int) = ray y0 dy 2 := by
    rcases wadd_step hdir.2.1 hy1 hy1b with ⟨_, h⟩ | ⟨_, h⟩
    · exact h
    · rw [h] at hy2b; norm_num at hy2b
  have hfuel : dm dx (wadd (wadd x0 dx) dx) + dm dy (wadd (wadd y0 dy) dy) <
      walkFuel := by
    have h1 := dm_le (d := dx) hx2b
    have h2 := dm_le (d := dy) hy2b
    unfold walkFuel
    omega
  obtain ⟨k, hk2, hkle, hrun, hres⟩ :=
    walkOpp_spec b (Cell.player cur.opponent) hdir x0 y0 walkFuel 2
      (wadd (wadd x0 dx) dx) (wadd (wadd y0 dy) dy) hx2 hy2 hx2b hy2b hfuel
  have hkle' : k ≤ 18 := by
    have h1 := dm_le (d := dx) hx2b
    have h2 := dm_le (d := dy) hy2b
    omega
  rcases hres with ⟨honk, hcellk, hwalk⟩ | ⟨_, hoff⟩
  · -- the walk stopped on the board at the first non-opposing ray cell
    have hobk : b.on_board (ray x0 dx k).toNat (ray y0 dy k).toNat := by
      obtain ⟨ha, hb', hc, hd⟩ := honk
      exact ⟨(by omega : (ray x0 dx k).toNat < 8),
        (by omega : (ray y0 dy k).toNat < 8)⟩
    by_cases hcur : b.get_cell (ray x0 dx k).toNat (ray y0 dy k).toNat =
        Cell.player cur
    · right
      refine ⟨k, hk2, ?_, honk, hcur, ?_⟩
      · intro m hm1 hm2
        rcases Nat.lt_or_ge m 2 with hm | hm
        · have hm1' : m = 1 := by omega
          subst hm1'
          exact ⟨hray1, hcell1'⟩
        · exact hrun m hm hm2
      · simp only [dirFlips]
        rw [if_neg (by push_neg; exact ⟨hob1, hcell1⟩),
          if_neg (by push_neg; exact hc2), hwalk]
        simp only [Prod.fst, Prod.snd]
        rw [if_neg (by push_neg; exact hobk), if_pos hcur]
        refine backtrack_spec hdir k walkFuel _ _ (by omega)
          (by unfold walkFuel; omega)
          (Int.toNat_of_nonneg honk.1) (Int.toNat_of_nonneg honk.2.2.1) ?_
        intro m hm1 hm2
        rcases Nat.lt_or_ge m 2 with hm | hm
        · have hm1' : m = 1 := by omega
          subst hm1'
          exact hray1
        · exact (hrun m hm hm2).1
    · left
      simp only [dirFlips]
      rw [if_neg (by push_neg; exact ⟨hob1, hcell1⟩),
        if_neg (by push_neg; exact hc2), hwalk]
      simp only [Prod.fst, Prod.snd]
      rw [if_neg (by push_neg; exact hobk), if_neg hcur]
  · -- the walk left the board: no sandwich in this direction
    left
    simp only [dirFlips]
    rw [if_neg (by push_neg; exact ⟨hob1, hcell1⟩),
      if_neg (by push_neg; exact hc2), if_pos hoff]

theorem ray_ne_origin {dx dy : Int} (hdir : dirOK dx dy) {x0 y0 m : Nat}
    (hm : 1 ≤ m) (hx : ray x0 dx m = (x0 : Int)) (hy : ray y0 dy m = (y0 : Int)) :
    False := by
  unfold ray at hx hy
  have hdx0 : (m : Int) * dx = 0 := by omega
  have hdy0 : (m : Int) * dy = 0 := by omega
  have hmne : (m : Int) ≠ 0 := by omega
  refine hdir.2.2 ⟨?_, ?_⟩
  · rcases mul_eq_zero.mp hdx0 with h | h
    · exact absurd h hmne
    · exact h
  · rcases mul_eq_zero.mp hdy0 with h | h
    · exact absurd h hmne
    · exact h

/-- Soundness of one direction's flip candidates: every emitted index is a
board index distinct from the candidate cell, currently holding the opposing
player's tile. -/
theorem dirFlips_sound {b : Board} {cur : Player} {x0 y0 : Nat} {dx dy : Int}
    (hdir : dirOK dx dy) (hx0 : x0 < 8) (hy0 : y0 < 8) :
    ∀ i ∈ dirFlips b cur x0 y0 dx dy,
      i < SIZE ∧ i ≠ at_pos x0 y0 ∧
        b.get_cell_idx i = Cell.player cur.opponent := by
  intro i hi
  rcases dirFlips_spec b cur hdir hx0 hy0 with h | ⟨K, hK2, hrun, _, _, heq⟩
  · rw [h] at hi
    simp at hi
  · rw [heq] at hi
    simp only [List.mem_map, List.mem_range] at hi
    obtain ⟨t, ht, rfl⟩ := hi
    have hm1 : 1 ≤ K - 1 - t := by omega
    have hmK : K - 1 - t < K := by omega
    obtain ⟨⟨ha, hb', hc, hd⟩, hcell⟩ := hrun (K - 1 - t) hm1 hmK
    have hxm : (ray x0 dx (K - 1 - t)).toNat < 8 := by omega
    have hym : (ray y0 dy (K - 1 - t)).toNat < 8 := by omega
    refine ⟨at_pos_lt hxm hym, ?_, hcell⟩
    intro he
    obtain ⟨he1, he2⟩ := at_pos_inj hxm hx0 he
    exact @ray_ne_origin dx dy hdir x0 y0 (K - 1 - t) hm1 (by omega) (by omega)

/-- Unfolded form of Game::is_valid_move, with the accumulated flip list named
explicitly. -/
theorem Game.is_valid_move_eq (g : Game) (x y : Nat) :
    g.is_valid_move x y =
      if g.board.get_cell x y ≠ Cell.empty then none
      else if (directions.flatMap fun d =>
          dirFlips g.board g.current_player x y d.1 d.2).isEmpty then none
      else some (directions.flatMap fun d =>
          dirFlips g.board g.current_player x y d.1 d.2) := rfl

/-- Every flip index reported by Game::is_valid_move is a board index distinct
from the target cell that currently holds the opponent's tile; moreover the
target cell is empty and the flip list non-empty. -/
theorem Game.is_valid_move_sound {g : Game} {x y : Nat} {F : List Nat}
    (hx : x < 8) (hy : y < 8) (h : g.is_valid_move x y = some F) :
    g.board.get_cell x y = Cell.empty ∧ F ≠ [] ∧
      ∀ i ∈ F, i < SIZE ∧ i ≠ at_pos x y ∧
        g.board.get_cell_idx i = Cell.player g.current_player.opponent := by
  rw [Game.is_valid_move_eq] at h
  by_cases hcell : g.board.get_cell x y = Cell.empty
  · rw [if_neg (by simpa using hcell)] at h
    split_ifs at h with hemp
    refine ⟨hcell, ?_, ?_⟩
    · intro hF
      have hFe := Option.some_inj.mp h
      rw [hF] at hFe
      simp [hFe] at hemp
    · intro i hi
      rw [← Option.some_inj.mp h] at hi
      simp only [List.mem_flatMap] at hi
      obtain ⟨d, hd, hid⟩ := hi
      have hdok : dirOK d.1 d.2 := dirOK_of_mem (by simpa using hd)
      exact dirFlips_sound hdok hx hy i hid
  · rw [if_pos (by simpa using hcell)] at h
    exact absurd h (by simp)

theorem Game.play_idx_ok {g : Game} {i : Nat} {g' : Game} :
    g.play_idx i = .ok g' ↔
      ∃ F, g.is_valid_move (i % WIDTH) (i / WIDTH) = some F ∧
        g' = { board := F.foldl
                 (fun b idx => b.set_cell_idx idx (Cell.player g.current_player))
                 (g.board.set_cell_idx i (Cell.player g.current_player)),
               current_player := g.current_player.opponent } := by
  unfold Game.play_idx
  cases h : g.is_valid_move (i % WIDTH) (i / WIDTH) with
  | none => simp
  | some F =>
    simp only [Except.ok.injEq, Option.some.injEq]
    constructor
    · intro he
      exact ⟨F, rfl, he.symm⟩
    · rintro ⟨F', hF', rfl⟩
      rw [hF']

theorem Game.play_idx_isOk {g : Game} {i : Nat} :
    (∃ g', g.play_idx i = .ok g') ↔
      (g.is_valid_move (i % WIDTH) (i / WIDTH)).isSome := by
  unfold Game.play_idx
  cases h : g.is_valid_move (i % WIDTH) (i / WIDTH) <;> simp

theorem Game.play_idx_error_iff {g : Game} {i : Nat} :
    (∃ e, g.play_idx i = .error e) ↔
      g.is_valid_move (i % WIDTH) (i / WIDTH) = none := by
  unfold Game.play_idx
  cases h : g.is_valid_move (i % WIDTH) (i / WIDTH) <;> simp

/-! ### Counting cells across writes -/

theorem Player.opponent_ne (p : Player) : p.opponent ≠ p := by
  cases p <;> simp [Player.opponent]

theorem Player.opponent_opponent (p : Player) : p.opponent.opponent = p := by
  cases p <;> rfl

/-- Number of tiles of one player on the board. -/
def countCell (b : Board) (c : Cell) : Nat := b.val.count c

theorem Board.total_moves_le (b : Board) : b.total_moves ≤ SIZE := by
  calc (b.val.filter fun cell => cell ≠ Cell.empty).length
      ≤ b.val.length := List.length_filter_le _ _
    _ = SIZE := b.prop

theorem Board.set_cell_idx_val (b : Board) (i : Nat) (c : Cell) :
    (b.set_cell_idx i c).val = b.val.set i c := rfl

theorem Board.get_cell_idx_lt (b : Board) {i : Nat} (hi : i < b.val.length) :
    b.get_cell_idx i = b.val[i] := by
  unfold Board.get_cell_idx
  rw [List.getD_eq_getElem?_getD, List.getElem?_eq_getElem hi]
  rfl

theorem Board.get_set_cell_idx (b : Board) (i j : Nat) (c : Cell) :
    (b.set_cell_idx i c).get_cell_idx j =
      if j = i ∧ j < SIZE then c else b.get_cell_idx j := by
  unfold Board.set_cell_idx Board.get_cell_idx
  simp only [List.getD_eq_getElem?_getD, List.getElem?_set, b.prop]
  by_cases h1 : i = j
  · subst h1
    by_cases h2 : i < SIZE
    · rw [if_pos rfl, if_pos h2, if_pos ⟨rfl, h2⟩]
      rfl
    · rw [if_pos rfl, if_neg h2, if_neg (by tauto)]
      have hnone : b.val[i]? = none := by
        rw [List.getElem?_eq_none_iff, b.prop]
        omega
      rw [hnone]
  · rw [if_neg h1, if_neg (by tauto)]

theorem Board.total_moves_eq_countP (b : Board) :
    b.total_moves = b.val.countP (fun cell => cell ≠ Cell.empty) := by
  unfold Board.total_moves
  rw [List.countP_eq_length_filter]

theorem Board.total_moves_set_nonempty {b : Board} {i : Nat} (hi : i < SIZE)
    (hne : b.get_cell_idx i ≠ Cell.empty) (p : Player) :
    (b.set_cell_idx i (Cell.player p)).total_moves = b.total_moves := by
  have hlen : i < b.val.length := by rw [b.prop]; exact hi
  rw [Board.total_moves_eq_countP, Board.total_moves_eq_countP,
    Board.set_cell_idx_val, List.countP_set _ _ _ _ hlen]
  rw [Board.get_cell_idx_lt b hlen] at hne
  have hcount : 0 < b.val.countP (fun cell => cell ≠ Cell.empty) := by
    rw [List.countP_pos_iff]
    exact ⟨b.val[i], List.getElem_mem hlen, by simpa using hne⟩
  have h1 : (decide (b.val[i] ≠ Cell.empty)) = true := by simpa using hne
  have h2 : (decide ((Cell.player p) ≠ Cell.empty)) = true := by simp
  simp only [h1, h2, if_pos]
  omega

theorem Board.total_moves_set_empty {b : Board} {i : Nat} (hi : i < SIZE)
    (he : b.get_cell_idx i = Cell.empty) (p : Player) :
    (b.set_cell_idx i (Cell.player p)).total_moves = b.total_moves + 1 := by
  have hlen : i < b.val.length := by rw [b.prop]; exact hi
  rw [Board.total_moves_eq_countP, Board.total_moves_eq_countP,
    Board.set_cell_idx_val, List.countP_set _ _ _ _ hlen]
  rw [Board.get_cell_idx_lt b hlen] at he
  have h1 : (decide (b.val[i] ≠ Cell.empty)) = false := by simpa using he
  have h2 : (decide ((Cell.player p) ≠ Cell.empty)) = true := by simp
  simp only [h1, h2]
  simp

theorem Board.total_moves_foldl_set (p : Player) :
    ∀ (F : List Nat) (b : Board),
      (∀ i ∈ F, i < SIZE ∧ b.get_cell_idx i ≠ Cell.empty) →
      (F.foldl (fun acc idx => acc.set_cell_idx idx (Cell.player p)) b).total_moves
        = b.total_moves := by
  intro F
  induction F with
  | nil => intro b _; rfl
  | cons f F ih =>
    intro b hF
    obtain ⟨hf, hfne⟩ := hF f (by simp)
    rw [List.foldl_cons, ih (b.set_cell_idx f (Cell.player p)) ?_,
      Board.total_moves_set_nonempty hf hfne]
    intro i hi
    obtain ⟨hilt, hine⟩ := hF i (by simp [hi])
    refine ⟨hilt, ?_⟩
    rw [Board.get_set_cell_idx]
    split_ifs with h
    · simp
    · exact hine

theorem countCell_set_self_ge (b : Board) (i : Nat) (p : Player) :
    countCell b (Cell.player p) ≤
      countCell (b.set_cell_idx i (Cell.player p)) (Cell.player p) := by
  unfold countCell
  rw [Board.set_cell_idx_val]
  by_cases hi : i < b.val.length
  · rw [List.count_set _ _ _ _ hi]
    by_cases hold : b.val[i] = Cell.player p
    · have hcount : 0 < b.val.count (Cell.player p) := by
        rw [List.count_pos_iff]
        rw [← hold]
        exact List.getElem_mem hi
      have h2 : (b.val[i] == Cell.player p) = true := by simpa using hold
      simp only [h2, beq_self_eq_true]
      split_ifs <;> omega
    · have h1 : (b.val[i] == Cell.player p) = false := by
        simpa using hold
      simp only [h1, beq_self_eq_true]
      split_ifs <;> omega
  · have hle : b.val.length ≤ i := by omega
    rw [List.set_eq_of_length_le hle]

theorem countCell_set_other_le (b : Board) (i : Nat) {c c' : Cell} (hne : c ≠ c') :
    countCell (b.set_cell_idx i c) c' ≤ countCell b c' := by
  unfold countCell
  rw [Board.set_cell_idx_val]
  by_cases hi : i < b.val.length
  · rw [List.count_set _ _ _ _ hi]
    have h1 : (c == c') = false := by simpa using hne
    simp only [h1]
    split_ifs <;> first | omega | simp_all
  · have hle : b.val.length ≤ i := by omega
    rw [List.set_eq_of_length_le hle]

theorem countCell_foldl_set_ge (p : Player) :
    ∀ (F : List Nat) (b : Board),
      countCell b (Cell.player p) ≤
        countCell
          (F.foldl (fun acc idx => acc.set_cell_idx idx (Cell.player p)) b)
          (Cell.player p) := by
  intro F
  induction F with
  | nil => intro b; exact le_rfl
  | cons f F ih =>
    intro b
    rw [List.foldl_cons]
    exact le_trans (countCell_set_self_ge b f p) (ih _)

theorem countCell_foldl_set_le {c c' : Cell} (hne : c ≠ c') :
    ∀ (F : List Nat) (b : Board),
      countCell (F.foldl (fun acc idx => acc.set_cell_idx idx c) b) c' ≤
        countCell b c' := by
  intro F
  induction F with
  | nil => intro b; exact le_rfl
  | cons f F ih =>
    intro b
    rw [List.foldl_cons]
    exact le_trans (ih _) (countCell_set_other_le b f hne)

theorem Board.get_foldl_set (c : Cell) :
    ∀ (F : List Nat) (b : Board) (j : Nat),
      (F.foldl (fun acc idx => acc.set_cell_idx idx c) b).get_cell_idx j =
        if j ∈ F ∧ j < SIZE then c else b.get_cell_idx j := by
  intro F
  induction F with
  | nil => intro b j; simp
  | cons f F ih =>
    intro b j
    rw [List.foldl_cons, ih]
    by_cases hmem : j ∈ F ∧ j < SIZE
    · rw [if_pos hmem, if_pos ⟨by simp [hmem.1], hmem.2⟩]
    · rw [if_neg hmem, Board.get_set_cell_idx]
      by_cases hf : j = f ∧ j < SIZE
      · rw [if_pos hf, if_pos ⟨by simp [hf.1], hf.2⟩]
      · rw [if_neg hf, if_neg ?_]
        rintro ⟨hj1, hj2⟩
        rcases (List.mem_cons).mp hj1 with h | h
        · exact hf ⟨h, hj2⟩
        · exact hmem ⟨h, hj2⟩

theorem Cell.player_ne_player {p q : Player} (h : p ≠ q) :
    Cell.player p ≠ Cell.player q := by
  intro he
  exact h (by injection he)

theorem Game.play_of_mem {g : Game} {m : Nat} (hm : m ∈ g.moves) :
    ∃ g', g.play_idx m = .ok g' :=
  Game.play_idx_isOk.mpr (Game.mem_moves_idx.mp hm).2

/-- Combined effect of playing a legal move: the player advances, the placed
tile and the whole flip set hold the mover's tile, every other cell is
unchanged, the occupied-cell count grows by exactly one, the mover's tile count
does not decrease, and the opponent's does not increase. -/
theorem Game.play_spec {g : Game} {m : Nat} {g' : Game} (hm : m ∈ g.moves)
    (h : g.play_idx m = .ok g') :
    g'.current_player = g.current_player.opponent ∧
    g'.board.get_cell_idx m = Cell.player g.current_player ∧
    g'.board.total_moves = g.board.total_moves + 1 ∧
    countCell g.board (Cell.player g.current_player) ≤
      countCell g'.board (Cell.player g.current_player) ∧
    countCell g'.board (Cell.player g.current_player.opponent) ≤
      countCell g.board (Cell.player g.current_player.opponent) ∧
    ∃ F, g.is_valid_move (m % WIDTH) (m / WIDTH) = some F ∧ F ≠ [] ∧
      (∀ j ∈ F, g'.board.get_cell_idx j = Cell.player g.current_player) ∧
      (∀ j, j ≠ m → j ∉ F → g'.board.get_cell_idx j = g.board.get_cell_idx j) := by
  obtain ⟨F, hF, rfl⟩ := Game.play_idx_ok.mp h
  have hmlt : m < SIZE := Game.mem_moves_lt hm
  have hx : m % WIDTH < 8 := by simp only [WIDTH]; omega
  have hy : m / WIDTH < 8 := by simp only [WIDTH, SIZE, HEIGHT] at *; omega
  obtain ⟨hempty, hFne, hFsound⟩ := Game.is_valid_move_sound hx hy hF
  unfold Board.get_cell at hempty
  rw [at_pos_self] at hempty hFsound
  have hmF : m ∉ F := fun hin => (hFsound m hin).2.1 rfl
  have hb1get : ∀ j, (g.board.set_cell_idx m
      (Cell.player g.current_player)).get_cell_idx j =
      if j = m ∧ j < SIZE then Cell.player g.current_player
      else g.board.get_cell_idx j := fun j => Board.get_set_cell_idx g.board m j _
  refine ⟨rfl, ?_, ?_, ?_, ?_, F, hF, hFne, ?_, ?_⟩
  · -- the placed tile
    rw [Board.get_foldl_set, if_neg (fun hc => hmF hc.1), hb1get,
      if_pos ⟨rfl, hmlt⟩]
  · -- total occupied cells grow by exactly one
    rw [Board.total_moves_foldl_set _ F _ ?_, Board.total_moves_set_empty hmlt hempty]
    intro i hi
    obtain ⟨hilt, hineq, hival⟩ := hFsound i hi
    refine ⟨hilt, ?_⟩
    rw [hb1get, if_neg (fun hc => hineq hc.1), hival]
    simp
  · -- the mover's tiles do not decrease
    exact le_trans (countCell_set_self_ge g.board m g.current_player)
      (countCell_foldl_set_ge _ F _)
  · -- the opponent's tiles do not increase
    have hne : Cell.player g.current_player ≠
        Cell.player g.current_player.opponent :=
      Cell.player_ne_player
        (fun he => Player.opponent_ne g.current_player he.symm)
    exact le_trans (countCell_foldl_set_le hne F _)
      (countCell_set_other_le g.board m hne)
  · -- the flip set is written
    intro j hj
    rw [Board.get_foldl_set, if_pos ⟨hj, (hFsound j hj).1⟩]
  · -- everything else is unchanged
    intro j hjm hjF
    rw [Board.get_foldl_set, if_neg (fun hc => hjF hc.1), hb1get,
      if_neg (fun hc => hjm hc.1)]

/-! ### The solver never fails and never runs out of fuel -/

theorem Game.is_winning_move_idx_ok {g : Game} {m : Nat} (p : Player)
    (hm : m ∈ g.moves) :
    ∃ bv, g.is_winning_move_idx m p = .ok bv := by
  obtain ⟨g', hg'⟩ := Game.play_of_mem hm
  unfold Game.is_winning_move_idx Game.is_winning_move Game.play
  rw [at_pos_self, hg']
  exact ⟨_, rfl⟩

theorem winCheck_spec {g : Game} :
    ∀ (ms : List Nat), (∀ m ∈ ms, m ∈ g.moves) →
      ∃ b, winCheck g ms = .ok b ∧
        (b = true ↔ ∃ m ∈ ms, g.is_winning_move_idx m g.current_player = .ok true) := by
  intro ms
  induction ms with
  | nil => exact fun _ => ⟨false, rfl, by simp⟩
  | cons m rest ih =>
    intro hsub
    obtain ⟨bv, hbv⟩ := Game.is_winning_move_idx_ok g.current_player
      (hsub m (by simp))
    obtain ⟨b, hb, hiff⟩ := ih (fun a ha => hsub a (by simp [ha]))
    cases bv
    · refine ⟨b, ?_, ?_⟩
      · unfold winCheck
        rw [hbv]
        exact hb
      · rw [hiff]
        constructor
        · rintro ⟨a, ha, hwin⟩
          exact ⟨a, by simp [ha], hwin⟩
        · rintro ⟨a, ha, hwin⟩
          rcases List.mem_cons.mp ha with rfl | ha'
          · rw [hbv] at hwin
            exact absurd (Except.ok.inj hwin) (by simp)
          · exact ⟨a, ha', hwin⟩
    · refine ⟨true, ?_, ?_⟩
      · unfold winCheck
        rw [hbv]
      · simp only [true_iff]
        exact ⟨m, by simp, hbv⟩

/-- Given enough fuel — one more than the number of empty cells — the best-move
loop of negamax completes with a value, never an error and never running dry. -/
theorem bestLoop_ok {fuel : Nat} {g : Game}
    (hIH : ∀ g' : Game, SIZE - g'.board.total_moves < fuel →
      ∃ v, negamaxFuel fuel g' = some (.ok v)) :
    ∀ (ms : List Nat) (best : Int), (∀ m ∈ ms, m ∈ g.moves) →
      SIZE - g.board.total_moves < fuel + 1 →
      ∃ v, bestLoop (negamaxFuel fuel) g ms best = some (.ok v) := by
  intro ms
  induction ms with
  | nil => exact fun best _ _ => ⟨best, rfl⟩
  | cons m rest ih =>
    intro best hsub hfuel
    obtain ⟨g', hg'⟩ := Game.play_of_mem (hsub m (by simp))
    have hspec := Game.play_spec (hsub m (by simp)) hg'
    have htot : g'.board.total_moves = g.board.total_moves + 1 := hspec.2.2.1
    have htot_le : g'.board.total_moves ≤ SIZE := g'.board.total_moves_le
    have hg'fuel : SIZE - g'.board.total_moves < fuel := by omega
    obtain ⟨v, hv⟩ := hIH g' hg'fuel
    obtain ⟨w, hw⟩ := ih (if -v > best then -v else best)
      (fun a ha => hsub a (by simp [ha])) hfuel
    refine ⟨w, ?_⟩
    unfold bestLoop
    rw [hg']
    dsimp only
    rw [hv]
    exact hw

/-- negamax completes with a value whenever the fuel exceeds the number of
empty cells: each recursive call is made on a successor position with exactly
one more occupied cell, so the recursion depth is bounded by the number of
empty cells. -/
theorem negamaxFuel_ok :
    ∀ (fuel : Nat) (g : Game), SIZE - g.board.total_moves < fuel →
      ∃ v, negamaxFuel fuel g = some (.ok v) := by
  intro fuel
  induction fuel with
  | zero => intro g h; omega
  | succ fuel ih =>
    intro g hfuel
    by_cases hemp : g.moves.isEmpty
    · refine ⟨0, ?_⟩
      unfold negamaxFuel
      rw [if_pos hemp]
    · obtain ⟨b, hb, hiff⟩ := winCheck_spec g.moves (fun m hm => hm)
      cases b
      · obtain ⟨v, hv⟩ := bestLoop_ok ih g.moves (-(SIZE : Int))
          (fun m hm => hm) hfuel
        refine ⟨v, ?_⟩
        unfold negamaxFuel
        rw [if_neg hemp, hb]
        exact hv
      · refine ⟨((SIZE : Int) + 1 - (g.total_moves : Int)).tdiv 2, ?_⟩
        unfold negamaxFuel
        rw [if_neg hemp, hb]

theorem negamax_ok (g : Game) : ∃ v, negamax g = .ok v := by
  obtain ⟨v, hv⟩ := negamaxFuel_ok (SIZE + 1) g
    (by have := g.board.total_moves_le; omega)
  refine ⟨v, ?_⟩
  unfold negamax
  rw [hv]
  rfl

/-- The successor position after a move, as a total function (identity when the
move is rejected); used only to state results about solve. -/
def successor (g : Game) (m : Nat) : Game := ((g.play_idx m).toOption).getD g

/-- The value negamax assigns to a position, as a total function (the solver is
proved never to fail, so the default is unreachable). -/
def negamaxValue (g : Game) : Int := ((negamax g).toOption).getD 0

theorem mapM_option_eq {α β : Type} (f : α → Option β) (gf : α → β) :
    ∀ l : List α, (∀ a ∈ l, f a = some (gf a)) → l.mapM f = some (l.map gf) := by
  intro l
  induction l with
  | nil => intro _; rfl
  | cons a l ih =>
    intro h
    rw [List.mapM_cons, h a (by simp), ih (fun a ha => h a (by simp [ha]))]
    rfl

/-- solve pairs every legal root move with the raw negamax value of the
successor position — the value from the perspective of the player to move in
that successor (the opponent of the root mover), with no negation applied. -/
theorem solve_spec (g : Game) :
    solve g = some (g.moves.map fun m => (negamaxValue (successor g m), m)) := by
  unfold solve
  refine mapM_option_eq _ _ g.moves ?_
  intro m hm
  obtain ⟨g', hg'⟩ := Game.play_of_mem hm
  obtain ⟨v, hv⟩ := negamax_ok g'
  unfold successor negamaxValue
  simp [hg', hv, Except.toOption]

/-! ### Parsing and display -/

/-- The cell a non-marker character denotes in the textual format. -/
def cellOfChar (c : Char) : Cell :=
  if c = 'X' then Cell.player Player.one
  else if c = 'O' then Cell.player Player.two
  else Cell.empty

theorem cellOfChar_to_char (c : Cell) : cellOfChar c.to_char = c := by
  rcases c with _ | p
  · rfl
  · cases p <;> rfl

theorem to_char_ne_star (c : Cell) : c.to_char ≠ '*' := by
  rcases c with _ | p
  · simp [Cell.to_char]
  · cases p <;> simp [Cell.to_char]

/-- Full characterisation of the inner character loop of from_string on valid
input: it succeeds, appends the positions of the * markers in column order, and
overlays exactly the non-marker characters onto the board. -/
theorem parseRow_spec :
    ∀ (cs : List Char) (b : Board) (rec : List Nat) (y x : Nat),
      y < HEIGHT →
      x + cs.length ≤ WIDTH →
      (∀ ch ∈ cs, ch = 'X' ∨ ch = 'O' ∨ ch = '*' ∨ ch = '-') →
      ∃ b', parseRow b rec y x cs =
          .ok (b', rec ++ (List.range cs.length).filterMap fun t =>
            if cs.getD t '-' = '*' then some (at_pos (x + t) y) else none) ∧
        ∀ u v, u < WIDTH →
          b'.get_cell u v =
            if v = y ∧ x ≤ u ∧ u < x + cs.length ∧ cs.getD (u - x) '-' ≠ '*'
            then cellOfChar (cs.getD (u - x) '-')
            else b.get_cell u v := by
  intro cs
  induction cs with
  | nil =>
    intro b rec y x _ _ _
    refine ⟨b, by simp [parseRow], ?_⟩
    intro u v _
    rw [if_neg ?_]
    rintro ⟨_, h1, h2, _⟩
    simp only [List.length_nil] at h2
    omega
  | cons c cs ih =>
    intro b rec y x hy hlen hchars
    simp only [List.length_cons] at hlen
    have hxw : x < WIDTH := by simp only [WIDTH] at *; omega
    have hxlt : ¬ x ≥ WIDTH := by omega
    have hrec : ∀ rec2 : List Nat,
        rec2 ++ ((List.range cs.length).filterMap fun t =>
          if cs.getD t '-' = '*' then some (at_pos (x + 1 + t) y) else none) =
        rec2 ++ ((List.range cs.length).filterMap fun t =>
          if (c :: cs).getD (t + 1) '-' = '*' then some (at_pos (x + (t + 1)) y)
          else none) := by
      intro rec2
      congr 1
      apply List.filterMap_congr
      intro t _
      rw [List.getD_cons_succ]
      have harith : x + 1 + t = x + (t + 1) := by omega
      rw [harith]
    have hsplit : ∀ rec2 : List Nat,
        rec2 ++ ((List.range (c :: cs).length).filterMap fun t =>
          if (c :: cs).getD t '-' = '*' then some (at_pos (x + t) y) else none) =
        rec2 ++ ((if c = '*' then [at_pos x y] else []) ++
          ((List.range cs.length).filterMap fun t =>
            if (c :: cs).getD (t + 1) '-' = '*' then some (at_pos (x + (t + 1)) y)
            else none)) := by
      intro rec2
      congr 1
      rw [List.length_cons, List.range_succ_eq_map, List.filterMap_cons,
        List.filterMap_map]
      by_cases hstar : c = '*'
      · rw [if_pos (by simpa using hstar), if_pos hstar]
        rfl
      · rw [if_neg (by simpa using hstar), if_neg hstar]
        rfl
    -- the shape of the continuation, shared by the star and non-star branches
    have hcont : ∀ (b2 : Board),
        (∀ u v, u < WIDTH → b2.get_cell u v =
          if u = x ∧ v = y ∧ c ≠ '*' then cellOfChar c else b.get_cell u v) →
        ∀ rec2, rec2 = rec ++ (if c = '*' then [at_pos x y] else []) →
        ∃ b', parseRow b2 rec2 y (x + 1) cs =
            .ok (b', rec ++ (List.range (c :: cs).length).filterMap fun t =>
              if (c :: cs).getD t '-' = '*' then some (at_pos (x + t) y) else none) ∧
          ∀ u v, u < WIDTH →
            b'.get_cell u v =
              if v = y ∧ x ≤ u ∧ u < x + (c :: cs).length ∧
                  (c :: cs).getD (u - x) '-' ≠ '*'
              then cellOfChar ((c :: cs).getD (u - x) '-')
              else b.get_cell u v := by
      intro b2 hb2 rec2 hrec2
      obtain ⟨b', hok, hcells⟩ := ih b2 rec2 y (x + 1) hy (by omega)
        (fun ch hch => hchars ch (by simp [hch]))
      refine ⟨b', ?_, ?_⟩
      · rw [hok, hsplit rec, ← List.append_assoc, ← hrec2, hrec rec2]
      · intro u v hu
        rw [hcells u v hu, hb2 u v hu]
        by_cases huv : u = x ∧ v = y
        · obtain ⟨h1u, h2v⟩ := huv
          have hskip : ¬ (v = y ∧ x + 1 ≤ u ∧ u < x + 1 + cs.length ∧
              cs.getD (u - (x + 1)) '-' ≠ '*') := by
            rintro ⟨_, hh, _, _⟩
            omega
          rw [if_neg hskip]
          have hgd : (c :: cs).getD (u - x) '-' = c := by
            rw [h1u, Nat.sub_self, List.getD_cons_zero]
          by_cases hstar : c = '*'
          · have hA : ¬ (u = x ∧ v = y ∧ c ≠ '*') := by simp [hstar]
            have hB : ¬ (v = y ∧ x ≤ u ∧ u < x + (c :: cs).length ∧
                (c :: cs).getD (u - x) '-' ≠ '*') := by
              rintro ⟨_, _, _, hne⟩
              rw [hgd] at hne
              exact hne hstar
            rw [if_neg hA, if_neg hB]
          · have hA : u = x ∧ v = y ∧ c ≠ '*' := ⟨h1u, h2v, hstar⟩
            have hB : v = y ∧ x ≤ u ∧ u < x + (c :: cs).length ∧
                (c :: cs).getD (u - x) '-' ≠ '*' := by
              refine ⟨h2v, by omega, by simp only [List.length_cons]; omega, ?_⟩
              rw [hgd]
              exact hstar
            rw [if_pos hA, if_pos hB, hgd]
        · by_cases hcond : v = y ∧ x + 1 ≤ u ∧ u < x + 1 + cs.length ∧
              cs.getD (u - (x + 1)) '-' ≠ '*'
          · obtain ⟨hv, hxu, hult, hne⟩ := hcond
            have hux : x ≤ u := by omega
            have hidx : u - x = (u - (x + 1)) + 1 := by omega
            have hgd : (c :: cs).getD (u - x) '-' = cs.getD (u - (x + 1)) '-' := by
              rw [hidx, List.getD_cons_succ]
            have hB : v = y ∧ x ≤ u ∧ u < x + (c :: cs).length ∧
                (c :: cs).getD (u - x) '-' ≠ '*' := by
              refine ⟨hv, hux, by simp only [List.length_cons]; omega, ?_⟩
              rw [hgd]
              exact hne
            rw [if_pos ⟨hv, hxu, hult, hne⟩, if_pos hB, hgd]
          · rw [if_neg hcond, if_neg (fun hc => huv ⟨hc.1, hc.2.1⟩), if_neg ?_]
            rintro ⟨hv, hxu, hult, hne⟩
            have hune : u ≠ x := fun he => huv ⟨he, hv⟩
            have hidx : u - x = (u - (x + 1)) + 1 := by omega
            rw [hidx, List.getD_cons_succ] at hne
            refine hcond ⟨hv, by omega, by
              simp only [List.length_cons] at hult
              omega, hne⟩
    rcases hchars c (by simp) with hc | hc | hc | hc
    · subst hc
      have hstep : parseRow b rec y x ('X' :: cs) =
          parseRow (b.set_cell x y (cellOfChar 'X')) rec y (x + 1) cs := by
        simp [parseRow, hxlt, cellOfChar]
      rw [hstep]
      refine hcont (b.set_cell x y (cellOfChar 'X')) ?_ rec (by simp)
      intro u v hu
      unfold Board.set_cell Board.get_cell
      rw [Board.get_set_cell_idx]
      by_cases huv : u = x ∧ v = y
      · obtain ⟨rfl, rfl⟩ := huv
        rw [if_pos ⟨rfl, at_pos_lt hu hy⟩, if_pos ⟨rfl, rfl, by simp⟩]
      · rw [if_neg ?_, if_neg (by tauto)]
        rintro ⟨he, _⟩
        obtain ⟨h1, h2⟩ := at_pos_inj hu hxw he
        exact huv ⟨h1, h2⟩
    · subst hc
      have hstep : parseRow b rec y x ('O' :: cs) =
          parseRow (b.set_cell x y (cellOfChar 'O')) rec y (x + 1) cs := by
        simp [parseRow, hxlt, cellOfChar]
      rw [hstep]
      refine hcont (b.set_cell x y (cellOfChar 'O')) ?_ rec (by simp)
      intro u v hu
      unfold Board.set_cell Board.get_cell
      rw [Board.get_set_cell_idx]
      by_cases huv : u = x ∧ v = y
      · obtain ⟨rfl, rfl⟩ := huv
        rw [if_pos ⟨rfl, at_pos_lt hu hy⟩, if_pos ⟨rfl, rfl, by simp⟩]
      · rw [if_neg ?_, if_neg (by tauto)]
        rintro ⟨he, _⟩
        obtain ⟨h1, h2⟩ := at_pos_inj hu hxw he
        exact huv ⟨h1, h2⟩
    · subst hc
      have hstep : parseRow b rec y x ('*' :: cs) =
          parseRow b (rec ++ [at_pos x y]) y (x + 1) cs := by
        simp [parseRow, hxlt]
      rw [hstep]
      refine hcont b ?_ (rec ++ [at_pos x y]) (by simp)
      intro u v hu
      rw [if_neg (by simp)]
    · subst hc
      have hstep : parseRow b rec y x ('-' :: cs) =
          parseRow (b.set_cell x y (cellOfChar '-')) rec y (x + 1) cs := by
        simp [parseRow, hxlt, cellOfChar]
      rw [hstep]
      refine hcont (b.set_cell x y (cellOfChar '-')) ?_ rec (by simp)
      intro u v hu
      unfold Board.set_cell Board.get_cell
      rw [Board.get_set_cell_idx]
      by_cases huv : u = x ∧ v = y
      · obtain ⟨rfl, rfl⟩ := huv
        rw [if_pos ⟨rfl, at_pos_lt hu hy⟩, if_pos ⟨rfl, rfl, by simp⟩]
      · rw [if_neg ?_, if_neg (by tauto)]
        rintro ⟨he, _⟩
        obtain ⟨h1, h2⟩ := at_pos_inj hu hxw he
        exact huv ⟨h1, h2⟩

/-- Full characterisation of the outer row loop of from_string on valid input:
it succeeds, appends the marker positions row-major, and overlays exactly the
non-marker characters onto the board. -/
theorem parseRows_spec :
    ∀ (rows : List (List Char)) (b : Board) (rec : List Nat) (y : Nat),
      y + rows.length ≤ HEIGHT →
      (∀ r ∈ rows, r.length ≤ WIDTH) →
      (∀ r ∈ rows, ∀ ch ∈ r, ch = 'X' ∨ ch = 'O' ∨ ch = '*' ∨ ch = '-') →
      ∃ b', parseRows b rec y rows =
          .ok (b', rec ++ (List.range rows.length).flatMap fun s =>
            (List.range (rows.getD s []).length).filterMap fun t =>
              if (rows.getD s []).getD t '-' = '*' then some (at_pos t (y + s))
              else none) ∧
        ∀ u v, u < WIDTH →
          b'.get_cell u v =
            if y ≤ v ∧ v < y + rows.length ∧ u < (rows.getD (v - y) []).length ∧
                (rows.getD (v - y) []).getD u '-' ≠ '*'
            then cellOfChar ((rows.getD (v - y) []).getD u '-')
            else b.get_cell u v := by
  intro rows
  induction rows with
  | nil =>
    intro b rec y _ _ _
    refine ⟨b, by simp [parseRows], ?_⟩
    intro u v _
    rw [if_neg ?_]
    rintro ⟨h1, h2, _, _⟩
    simp only [List.length_nil] at h2
    omega
  | cons r rows ih =>
    intro b rec y hlen hwidths hchars
    simp only [List.length_cons] at hlen
    have hyh : y < HEIGHT := by omega
    have hylt : ¬ y ≥ HEIGHT := by omega
    obtain ⟨b1, hok1, hcells1⟩ := parseRow_spec r b rec y 0 hyh
      (by simpa using hwidths r (by simp)) (hchars r (by simp))
    obtain ⟨b', hok2, hcells2⟩ := ih b1
      (rec ++ (List.range r.length).filterMap fun t =>
        if r.getD t '-' = '*' then some (at_pos (0 + t) y) else none)
      (y + 1) (by omega) (fun a ha => hwidths a (by simp [ha]))
      (fun a ha => hchars a (by simp [ha]))
    have hstep : parseRows b rec y (r :: rows) =
        parseRows b1
          (rec ++ (List.range r.length).filterMap fun t =>
            if r.getD t '-' = '*' then some (at_pos (0 + t) y) else none)
          (y + 1) rows := by
      simp only [parseRows]
      rw [if_neg hylt, hok1]
    refine ⟨b', ?_, ?_⟩
    · rw [hstep, hok2]
      congr 2
      rw [List.append_assoc]
      congr 1
      rw [List.length_cons, List.range_succ_eq_map, List.flatMap_cons,
        List.flatMap_map]
      congr 1
      · apply List.filterMap_congr
        intro t _
        simp only [List.getD_cons_zero, Nat.zero_add, Nat.add_zero]
      · apply List.flatMap_congr
        intro s _
        simp only [List.getD_cons_succ]
        apply List.filterMap_congr
        intro t _
        have harith : y + 1 + s = y + (s + 1) := by omega
        rw [harith]
    · intro u v hu
      rw [hcells2 u v hu, hcells1 u v hu]
      by_cases hv : v = y
      · -- the cell lies in the first row's band
        have hC2f : ¬ (y + 1 ≤ v ∧ v < y + 1 + rows.length ∧
            u < (rows.getD (v - (y + 1)) []).length ∧
            (rows.getD (v - (y + 1)) []).getD u '-' ≠ '*') := by
          rintro ⟨hh, _, _, _⟩
          omega
        rw [if_neg hC2f]
        have hgetD : (r :: rows).getD (v - y) [] = r := by
          rw [hv, Nat.sub_self, List.getD_cons_zero]
        by_cases hc : u < r.length ∧ r.getD u '-' ≠ '*'
        · have hC1 : v = y ∧ 0 ≤ u ∧ u < 0 + r.length ∧ r.getD (u - 0) '-' ≠ '*' :=
            ⟨hv, Nat.zero_le u, by omega, hc.2⟩
          have hCG : y ≤ v ∧ v < y + (r :: rows).length ∧
              u < ((r :: rows).getD (v - y) []).length ∧
              ((r :: rows).getD (v - y) []).getD u '-' ≠ '*' := by
            refine ⟨by omega, by simp only [List.length_cons]; omega, ?_, ?_⟩
            · rw [hgetD]; exact hc.1
            · rw [hgetD]; exact hc.2
          rw [if_pos hC1, if_pos hCG, hgetD, Nat.sub_zero]
        · have hC1f : ¬ (v = y ∧ 0 ≤ u ∧ u < 0 + r.length ∧
              r.getD (u - 0) '-' ≠ '*') := by
            rintro ⟨_, _, hc3, hc4⟩
            exact hc ⟨by omega, hc4⟩
          have hCGf : ¬ (y ≤ v ∧ v < y + (r :: rows).length ∧
              u < ((r :: rows).getD (v - y) []).length ∧
              ((r :: rows).getD (v - y) []).getD u '-' ≠ '*') := by
            rintro ⟨_, _, hc3, hc4⟩
            rw [hgetD] at hc3 hc4
            exact hc ⟨hc3, hc4⟩
          rw [if_neg hC1f, if_neg hCGf]
      · -- the cell lies in the later rows' band or outside
        by_cases hC2 : y + 1 ≤ v ∧ v < y + 1 + rows.length ∧
            u < (rows.getD (v - (y + 1)) []).length ∧
            (rows.getD (v - (y + 1)) []).getD u '-' ≠ '*'
        · obtain ⟨hg1, hg2, hg3, hg4⟩ := hC2
          have hidx : v - y = (v - (y + 1)) + 1 := by omega
          have hgetD : (r :: rows).getD (v - y) [] = rows.getD (v - (y + 1)) [] := by
            rw [hidx, List.getD_cons_succ]
          have hCG : y ≤ v ∧ v < y + (r :: rows).length ∧
              u < ((r :: rows).getD (v - y) []).length ∧
              ((r :: rows).getD (v - y) []).getD u '-' ≠ '*' := by
            refine ⟨by omega, by simp only [List.length_cons]; omega, ?_, ?_⟩
            · rw [hgetD]; exact hg3
            · rw [hgetD]; exact hg4
          rw [if_pos ⟨hg1, hg2, hg3, hg4⟩, if_pos hCG, hgetD]
        · have hCGf : ¬ (y ≤ v ∧ v < y + (r :: rows).length ∧
              u < ((r :: rows).getD (v - y) []).length ∧
              ((r :: rows).getD (v - y) []).getD u '-' ≠ '*') := by
            rintro ⟨hg1, hg2, hg3, hg4⟩
            have hyv : y + 1 ≤ v := by
              rcases Nat.lt_or_ge y v with h | h
              · omega
              · exact absurd (by omega : v = y) hv
            have hidx : v - y = (v - (y + 1)) + 1 := by omega
            rw [hidx, List.getD_cons_succ] at hg3 hg4
            refine hC2 ⟨hyv, by
              simp only [List.length_cons] at hg2
              omega, hg3, hg4⟩
          rw [if_neg hC2, if_neg (fun hC => hv hC.1), if_neg hCGf]

/-- Writing one cell leaves any other coordinate pair with an in-range column
unchanged. -/
theorem Board.get_set_cell_other {b : Board} {x y u v : Nat} (hu : u < WIDTH)
    (hx : x < WIDTH) (hne : ¬ (u = x ∧ v = y)) (c : Cell) :
    (b.set_cell x y c).get_cell u v = b.get_cell u v := by
  unfold Board.set_cell Board.get_cell
  rw [Board.get_set_cell_idx, if_neg ?_]
  rintro ⟨he, _⟩
  obtain ⟨e1, e2⟩ := at_pos_inj hu hx he
  exact hne ⟨e1, e2⟩

/-- Any cell the inner character loop does not explicitly assign — out of the
character range, or covered by a * marker — keeps its previous board value. -/
theorem parseRow_preserve :
    ∀ (cs : List Char) (b : Board) (rec : List Nat) (y x : Nat)
      (b' : Board) (rec' : List Nat),
      parseRow b rec y x cs = .ok (b', rec') →
      ∀ u v, u < WIDTH →
        (v ≠ y ∨ u < x ∨ x + cs.length ≤ u ∨ cs.getD (u - x) '*' = '*') →
        b'.get_cell u v = b.get_cell u v := by
  intro cs
  induction cs with
  | nil =>
    intro b rec y x b' rec' h u v _ _
    obtain ⟨rfl, rfl⟩ : b = b' ∧ rec = rec' := by simpa [parseRow] using h
    rfl
  | cons c cs ih =>
    intro b rec y x b' rec' h u v hu hcond
    simp only [parseRow] at h
    split_ifs at h with h1 h2 h3 h4 h5
    · -- a cell-writing branch (the character is X)
      have hxw : x < WIDTH := by omega
      have hshift : v ≠ y ∨ u < x + 1 ∨ (x + 1) + cs.length ≤ u ∨
          cs.getD (u - (x + 1)) '*' = '*' := by
        rcases hcond with hc | hc | hc | hc
        · exact Or.inl hc
        · exact Or.inr (Or.inl (by omega))
        · simp only [List.length_cons] at hc
          exact Or.inr (Or.inr (Or.inl (by omega)))
        · rcases Nat.lt_or_ge u (x + 1) with hux | hux
          · exact Or.inr (Or.inl hux)
          · have hidx : u - x = (u - (x + 1)) + 1 := by omega
            rw [hidx, List.getD_cons_succ] at hc
            exact Or.inr (Or.inr (Or.inr hc))
      have hnotxy : ¬ (u = x ∧ v = y) := by
        rintro ⟨rfl, rfl⟩
        rcases hcond with hc | hc | hc | hc
        · exact hc rfl
        · omega
        · simp only [List.length_cons] at hc
          omega
        · rw [Nat.sub_self, List.getD_cons_zero] at hc
          rw [h2] at hc
          exact absurd hc (by decide)
      rw [ih _ _ _ _ _ _ h u v hu hshift,
        Board.get_set_cell_other hu hxw hnotxy]
    · -- the character is O
      have hxw : x < WIDTH := by omega
      have hshift : v ≠ y ∨ u < x + 1 ∨ (x + 1) + cs.length ≤ u ∨
          cs.getD (u - (x + 1)) '*' = '*' := by
        rcases hcond with hc | hc | hc | hc
        · exact Or.inl hc
        · exact Or.inr (Or.inl (by omega))
        · simp only [List.length_cons] at hc
          exact Or.inr (Or.inr (Or.inl (by omega)))
        · rcases Nat.lt_or_ge u (x + 1) with hux | hux
          · exact Or.inr (Or.inl hux)
          · have hidx : u - x = (u - (x + 1)) + 1 := by omega
            rw [hidx, List.getD_cons_succ] at hc
            exact Or.inr (Or.inr (Or.inr hc))
      have hnotxy : ¬ (u = x ∧ v = y) := by
        rintro ⟨rfl, rfl⟩
        rcases hcond with hc | hc | hc | hc
        · exact hc rfl
        · omega
        · simp only [List.length_cons] at hc
          omega
        · rw [Nat.sub_self, List.getD_cons_zero] at hc
          rw [h3] at hc
          exact absurd hc (by decide)
      rw [ih _ _ _ _ _ _ h u v hu hshift,
        Board.get_set_cell_other hu hxw hnotxy]
    · -- the character is a star: no write at all
      have hshift : v ≠ y ∨ u < x + 1 ∨ (x + 1) + cs.length ≤ u ∨
          cs.getD (u - (x + 1)) '*' = '*' := by
        rcases hcond with hc | hc | hc | hc
        · exact Or.inl hc
        · exact Or.inr (Or.inl (by omega))
        · simp only [List.length_cons] at hc
          exact Or.inr (Or.inr (Or.inl (by omega)))
        · rcases Nat.lt_or_ge u (x + 1) with hux | hux
          · exact Or.inr (Or.inl hux)
          · have hidx : u - x = (u - (x + 1)) + 1 := by omega
            rw [hidx, List.getD_cons_succ] at hc
            exact Or.inr (Or.inr (Or.inr hc))
      rw [ih _ _ _ _ _ _ h u v hu hshift]
    · -- the character is a dash
      have hxw : x < WIDTH := by omega
      have hshift : v ≠ y ∨ u < x + 1 ∨ (x + 1) + cs.length ≤ u ∨
          cs.getD (u - (x + 1)) '*' = '*' := by
        rcases hcond with hc | hc | hc | hc
        · exact Or.inl hc
        · exact Or.inr (Or.inl (by omega))
        · simp only [List.length_cons] at hc
          exact Or.inr (Or.inr (Or.inl (by omega)))
        · rcases Nat.lt_or_ge u (x + 1) with hux | hux
          · exact Or.inr (Or.inl hux)
          · have hidx : u - x = (u - (x + 1)) + 1 := by omega
            rw [hidx, List.getD_cons_succ] at hc
            exact Or.inr (Or.inr (Or.inr hc))
      have hnotxy : ¬ (u = x ∧ v = y) := by
        rintro ⟨rfl, rfl⟩
        rcases hcond with hc | hc | hc | hc
        · exact hc rfl
        · omega
        · simp only [List.length_cons] at hc
          omega
        · rw [Nat.sub_self, List.getD_cons_zero] at hc
          rw [h5] at hc
          exact absurd hc (by decide)
      rw [ih _ _ _ _ _ _ h u v hu hshift,
        Board.get_set_cell_other hu hxw hnotxy]

/-- Any cell the row loop does not explicitly assign — above the first parsed
row, beyond the parsed rows or columns, or covered by a * marker — keeps its
previous board value. -/
theorem parseRows_preserve :
    ∀ (rows : List (List Char)) (b : Board) (rec : List Nat) (y : Nat)
      (b' : Board) (rec' : List Nat),
      parseRows b rec y rows = .ok (b', rec') →
      ∀ u v, u < WIDTH →
        ((rows.getD (v - y) []).getD u '*' = '*' ∨ v < y) →
        b'.get_cell u v = b.get_cell u v := by
  intro rows
  induction rows with
  | nil =>
    intro b rec y b' rec' h u v _ _
    obtain ⟨rfl, rfl⟩ : b = b' ∧ rec = rec' := by simpa [parseRows] using h
    rfl
  | cons r rows ih =>
    intro b rec y b' rec' h u v hu hcond
    simp only [parseRows] at h
    split_ifs at h with h1
    cases hpr : parseRow b rec y 0 r with
    | error e =>
      rw [hpr] at h
      exact absurd h (by simp)
    | ok pr =>
      obtain ⟨b1, rec1⟩ := pr
      rw [hpr] at h
      have hrow : b1.get_cell u v = b.get_cell u v := by
        refine parseRow_preserve r b rec y 0 b1 rec1 hpr u v hu ?_
        rcases hcond with hc | hc
        · by_cases hv : v = y
          · subst hv
            rw [Nat.sub_self, List.getD_cons_zero] at hc
            exact Or.inr (Or.inr (Or.inr hc))
          · exact Or.inl hv
        · exact Or.inl (by omega)
      have hrest : b'.get_cell u v = b1.get_cell u v := by
        refine ih b1 rec1 (y + 1) b' rec' h u v hu ?_
        rcases hcond with hc | hc
        · rcases Nat.lt_or_ge v (y + 1) with hv | hv
          · exact Or.inr hv
          · have hidx : v - y = (v - (y + 1)) + 1 := by omega
            rw [hidx, List.getD_cons_succ] at hc
            exact Or.inl hc
        · exact Or.inr (by omega)
      rw [hrest, hrow]

/-- The cells Game::from_string does not explicitly assign an X, O or dash
character keep their value from the Game::new opening position. -/
theorem from_string_preserve {rows : List (List Char)} {player : Player}
    {validate : Bool} {g : Game}
    (h : Game.from_string rows player validate = .ok g) :
    ∀ x y, x < WIDTH →
      (rows.getD y []).getD x '*' = '*' →
      g.board.get_cell x y = Game.new.board.get_cell x y := by
  intro x y hx hstar
  unfold Game.from_string at h
  cases hp : parseRows Game.new.board [] 0 rows with
  | error e =>
    rw [hp] at h
    exact absurd h (by simp)
  | ok pr =>
    obtain ⟨b, recorded⟩ := pr
    rw [hp] at h
    dsimp only at h
    have hb : g.board = b := by
      by_cases hv : validate
      · rw [if_pos hv] at h
        split_ifs at h
        obtain rfl := (Except.ok.inj h).symm
        rfl
      · rw [if_neg hv] at h
        obtain rfl := (Except.ok.inj h).symm
        rfl
    rw [hb]
    refine parseRows_preserve rows Game.new.board [] 0 b recorded hp x y hx ?_
    rw [Nat.sub_zero]
    exact Or.inl hstar

/-! ### Reachable positions and the display round trip -/

/-- Positions reachable from the canonical opening position by legal plays. -/
inductive Reachable : Game → Prop where
  | new : Reachable Game.new
  | play {g g' : Game} {m : Nat} (hr : Reachable g) (hm : m ∈ g.moves)
      (hp : g.play_idx m = .ok g') : Reachable g'

/-- Playing never empties a cell: every cell occupied in the opening position
stays occupied in every reachable position. -/
theorem Reachable.occupied {g : Game} (hr : Reachable g) :
    ∀ i, Game.new.board.get_cell_idx i ≠ Cell.empty →
      g.board.get_cell_idx i ≠ Cell.empty := by
  induction hr with
  | new => exact fun i h => h
  | @play g0 g' m hr hm hp ih =>
    intro i h
    obtain ⟨_, hmcell, _, _, _, F, hF, _, hFw, hother⟩ := Game.play_spec hm hp
    by_cases him : i = m
    · subst him
      rw [hmcell]
      simp
    · by_cases hiF : i ∈ F
      · rw [hFw i hiF]
        simp
      · rw [hother i him hiF]
        exact ih i h

/-- Every legal move targets an empty cell. -/
theorem Game.mem_moves_empty {g : Game} {i : Nat} (h : i ∈ g.moves) :
    g.board.get_cell_idx i = Cell.empty := by
  obtain ⟨x, y, hx, hy, rfl, hv⟩ := Game.mem_moves.mp h
  obtain ⟨F, hF⟩ := Option.isSome_iff_exists.mp hv
  exact (Game.is_valid_move_sound hx hy hF).1

/-- In a reachable position, every legal-move cell is empty in the opening
position as well: the opening's occupied cells can never be legal targets. -/
theorem Reachable.moves_empty_in_new {g : Game} (hr : Reachable g) {i : Nat}
    (hm : i ∈ g.moves) :
    Game.new.board.get_cell_idx i = Cell.empty ∧
      g.board.get_cell_idx i = Cell.empty := by
  have hg := Game.mem_moves_empty hm
  refine ⟨?_, hg⟩
  by_contra hne
  exact (hr.occupied i hne) hg

theorem displayGrid_length (g : Game) : (displayGrid g).length = HEIGHT := by
  simp [displayGrid]

theorem displayGrid_getD {g : Game} {x y : Nat} (hx : x < WIDTH) (hy : y < HEIGHT) :
    ((displayGrid g).getD y []).getD x '-' =
      if at_pos x y ∈ g.moves then '*' else (g.board.get_cell x y).to_char := by
  have houter : (displayGrid g).getD y [] = (List.range WIDTH).map fun xx =>
      if at_pos xx y ∈ g.moves then '*' else (g.board.get_cell xx y).to_char := by
    have h1 : displayGrid g = (List.range HEIGHT).map fun yy =>
        (List.range WIDTH).map fun xx =>
          if at_pos xx yy ∈ g.moves then '*'
          else (g.board.get_cell xx yy).to_char := rfl
    rw [h1, List.getD_eq_getElem?_getD, List.getElem?_map, List.getElem?_range hy]
    rfl
  rw [houter, List.getD_eq_getElem?_getD, List.getElem?_map, List.getElem?_range hx]
  rfl

/-- The legal-move list is pairwise increasing in the column-major order the
enumeration loop produces: ascending x, and ascending y within a column. -/
theorem Game.moves_pairwise (g : Game) :
    g.moves.Pairwise (fun a b =>
      a % WIDTH < b % WIDTH ∨ (a % WIDTH = b % WIDTH ∧ a / WIDTH < b / WIDTH)) := by
  unfold Game.moves
  rw [List.pairwise_flatMap]
  constructor
  · intro x hx
    rw [List.pairwise_filterMap]
    refine List.Pairwise.imp ?_ (List.pairwise_lt_range HEIGHT)
    intro y y' hyy b hb b' hb'
    rw [List.mem_range] at hx
    split_ifs at hb hb' <;> simp_all
    subst hb
    subst hb'
    simp only [at_pos_mod hx, at_pos_div hx]
    simp [hyy]
  · refine List.Pairwise.imp_of_mem ?_ (List.pairwise_lt_range WIDTH)
    intro x x' hxmem hx'mem hxx
    rw [List.mem_range] at hxmem hx'mem
    intro b hb b' hb'
    simp only [List.mem_filterMap, List.mem_range] at hb hb'
    obtain ⟨y, hy, hby⟩ := hb
    obtain ⟨y', hy', hby'⟩ := hb'
    split_ifs at hby hby'
    simp_all
    subst hby
    subst hby'
    rw [at_pos_mod hxmem, at_pos_mod hx'mem]
    exact Or.inl hxx

theorem Game.moves_nodup (g : Game) : g.moves.Nodup := by
  refine (g.moves_pairwise).imp ?_
  intro a b h
  rintro rfl
  rcases h with h | ⟨h1, h2⟩ <;> omega

theorem Cell.to_char_cases (c : Cell) :
    c.to_char = 'X' ∨ c.to_char = 'O' ∨ c.to_char = '-' := by
  rcases c with _ | p
  · simp [Cell.to_char]
  · cases p <;> simp [Cell.to_char]

theorem displayGrid_getD_length {g : Game} {y : Nat} (hy : y < HEIGHT) :
    ((displayGrid g).getD y []).length = WIDTH := by
  have h1 : displayGrid g = (List.range HEIGHT).map fun yy =>
      (List.range WIDTH).map fun xx =>
        if at_pos xx yy ∈ g.moves then '*'
        else (g.board.get_cell xx yy).to_char := rfl
  rw [h1, List.getD_eq_getElem?_getD, List.getElem?_map, List.getElem?_range hy]
  simp

/-- A row-major grid scan that keeps a filtered subset of the cell indices
produces a duplicate-free list. -/
theorem grid_filter_nodup (P : Nat → Prop) [DecidablePred P] :
    ((List.range HEIGHT).flatMap fun s =>
      (List.range WIDTH).filterMap fun t =>
        if P (at_pos t s) then some (at_pos t s) else none).Nodup := by
  have hpw : ((List.range HEIGHT).flatMap fun s =>
      (List.range WIDTH).filterMap fun t =>
        if P (at_pos t s) then some (at_pos t s) else none).Pairwise
      (fun a b => a / WIDTH < b / WIDTH ∨
        (a / WIDTH = b / WIDTH ∧ a % WIDTH < b % WIDTH)) := by
    rw [List.pairwise_flatMap]
    constructor
    · intro s hs
      rw [List.pairwise_filterMap]
      refine List.Pairwise.imp_of_mem ?_ (List.pairwise_lt_range WIDTH)
      intro t t' htmem ht'mem htt b hb b' hb'
      rw [List.mem_range] at htmem ht'mem
      split_ifs at hb hb' <;> simp_all
      subst hb
      subst hb'
      simp only [at_pos_mod htmem, at_pos_mod ht'mem, at_pos_div htmem,
        at_pos_div ht'mem]
      simp [htt]
    · refine List.Pairwise.imp_of_mem ?_ (List.pairwise_lt_range HEIGHT)
      intro s s' hsmem hs'mem hss b hb b' hb'
      simp only [List.mem_filterMap, List.mem_range] at hb hb'
      obtain ⟨t, ht, hbt⟩ := hb
      obtain ⟨t', ht', hbt'⟩ := hb'
      split_ifs at hbt hbt'
      simp_all
      subst hbt
      subst hbt'
      simp only [at_pos_div ht, at_pos_div ht']
      simp [hss]
  refine hpw.imp ?_
  intro a b h
  rintro rfl
  rcases h with h | ⟨h1, h2⟩ <;> omega

theorem displayGrid_eq (g : Game) :
    displayGrid g = (List.range HEIGHT).map fun yy =>
      (List.range WIDTH).map fun xx =>
        if at_pos xx yy ∈ g.moves then '*'
        else (g.board.get_cell xx yy).to_char := rfl

/-- The canonical row-major list of the * marker positions in the displayed
grid: exactly the legal moves, enumerated row-major. -/
def markerList (g : Game) : List Nat :=
  (List.range HEIGHT).flatMap fun s =>
    (List.range WIDTH).filterMap fun t =>
      if at_pos t s ∈ g.moves then some (at_pos t s) else none

theorem markerList_mem (g : Game) : ∀ i, i ∈ markerList g ↔ i ∈ g.moves := by
  intro i
  unfold markerList
  simp only [List.mem_flatMap, List.mem_filterMap, List.mem_range]
  constructor
  · rintro ⟨s, hs, t, ht, hi⟩
    split_ifs at hi with hm
    obtain rfl := Option.some_inj.mp hi
    exact hm
  · intro hm
    obtain ⟨x, y, hx, hy, rfl, _⟩ := Game.mem_moves.mp hm
    exact ⟨y, hy, x, hx, by rw [if_pos hm]⟩

/-- Re-parsing the displayed grid of a reachable position, with validation
enabled and the same player to move, succeeds and reconstructs the position
exactly. -/
theorem reachable_roundtrip {g : Game} (hr : Reachable g) :
    Game.from_string (displayGrid g) g.current_player true = .ok g := by
  have hlen0 : (0 : Nat) + (displayGrid g).length ≤ HEIGHT := by
    rw [displayGrid_length, Nat.zero_add]
  obtain ⟨b', hok, hcells⟩ := parseRows_spec (displayGrid g) Game.new.board [] 0
    hlen0
    (by
      intro r hrr
      rw [displayGrid_eq] at hrr
      simp only [List.mem_map, List.mem_range] at hrr
      obtain ⟨yy, _, rfl⟩ := hrr
      simp)
    (by
      intro r hrr ch hch
      rw [displayGrid_eq] at hrr
      simp only [List.mem_map, List.mem_range] at hrr
      obtain ⟨yy, _, rfl⟩ := hrr
      simp only [List.mem_map, List.mem_range] at hch
      obtain ⟨xx, _, rfl⟩ := hch
      split_ifs with hm
      · right; right; left; rfl
      · rcases Cell.to_char_cases (g.board.get_cell xx yy) with h | h | h
        · exact Or.inl h
        · exact Or.inr (Or.inl h)
        · exact Or.inr (Or.inr (Or.inr h)))
  have hboard : b' = g.board := by
    apply Subtype.ext
    apply List.ext_getElem
    · rw [b'.prop, g.board.prop]
    intro i h1 h2
    have hi : i < SIZE := by rw [b'.prop] at h1; exact h1
    have hx : i % WIDTH < WIDTH := by simp only [WIDTH]; omega
    have hy : i / WIDTH < HEIGHT := by
      simp only [WIDTH, HEIGHT, SIZE] at *
      omega
    rw [← Board.get_cell_idx_lt b' h1, ← Board.get_cell_idx_lt g.board h2]
    have hgb' : b'.get_cell_idx i = b'.get_cell (i % WIDTH) (i / WIDTH) := by
      unfold Board.get_cell
      rw [at_pos_self]
    have hgg : g.board.get_cell_idx i =
        g.board.get_cell (i % WIDTH) (i / WIDTH) := by
      unfold Board.get_cell
      rw [at_pos_self]
    rw [hgb', hgg]
    have hcell := hcells (i % WIDTH) (i / WIDTH) hx
    rw [Nat.sub_zero] at hcell
    by_cases hm : at_pos (i % WIDTH) (i / WIDTH) ∈ g.moves
    · -- a legal-move cell: displayed as *, untouched by the parse, empty on
      -- both the opening board and the current board
      have hchar : ((displayGrid g).getD (i / WIDTH) []).getD (i % WIDTH) '-' =
          '*' := by
        rw [displayGrid_getD hx hy, if_pos hm]
      rw [hcell, if_neg ?_]
      · have hmm := hm
        rw [at_pos_self] at hmm
        obtain ⟨hnew, hcur⟩ := hr.moves_empty_in_new hmm
        unfold Board.get_cell
        rw [at_pos_self, hnew, hcur]
      · rintro ⟨_, _, _, hne⟩
        exact hne hchar
    · -- an ordinary cell: its character round-trips through to_char
      have hchar : ((displayGrid g).getD (i / WIDTH) []).getD (i % WIDTH) '-' =
          (g.board.get_cell (i % WIDTH) (i / WIDTH)).to_char := by
        rw [displayGrid_getD hx hy, if_neg hm]
      rw [hcell, if_pos ?_]
      · rw [hchar, cellOfChar_to_char]
      · refine ⟨Nat.zero_le _, ?_, ?_, ?_⟩
        · rw [Nat.zero_add, displayGrid_length]
          exact hy
        · rw [displayGrid_getD_length hy]
          exact hx
        · rw [hchar]
          exact to_char_ne_star _
  have hrecorded : ([] : List Nat) ++
      ((List.range (displayGrid g).length).flatMap fun s =>
        (List.range ((displayGrid g).getD s []).length).filterMap fun t =>
          if ((displayGrid g).getD s []).getD t '-' = '*'
          then some (at_pos t (0 + s)) else none) = markerList g := by
    rw [List.nil_append, displayGrid_length]
    apply List.flatMap_congr
    intro s hs
    rw [List.mem_range] at hs
    rw [displayGrid_getD_length hs]
    apply List.filterMap_congr
    intro t ht
    rw [List.mem_range] at ht
    rw [displayGrid_getD ht hs, Nat.zero_add]
    by_cases hm : at_pos t s ∈ g.moves
    · rw [if_pos hm, if_pos rfl, if_pos hm]
    · rw [if_neg hm, if_neg (to_char_ne_star (g.board.get_cell t s)), if_neg hm]
  have hperm : List.Perm (markerList g) g.moves :=
    (List.perm_ext_iff_of_nodup (grid_filter_nodup fun i => i ∈ g.moves)
      (Game.moves_nodup g)).mpr (markerList_mem g)
  have hsorteq : List.insertionSort (· ≤ ·) g.moves =
      List.insertionSort (· ≤ ·) (markerList g) := by
    refine List.eq_of_perm_of_sorted ?_
      (List.sorted_insertionSort (· ≤ ·) g.moves)
      (List.sorted_insertionSort (· ≤ ·) (markerList g))
    exact (List.perm_insertionSort _ _).trans
      (hperm.symm.trans (List.perm_insertionSort _ _).symm)
  unfold Game.from_string
  rw [hok, hrecorded]
  dsimp only
  rw [hboard]
  have hgame : ({ board := g.board, current_player := g.current_player } : Game)
      = g := rfl
  rw [hgame, if_pos rfl, if_neg (not_not_intro hsorteq)]

/-! ### Checked embedding: runtime panics modelled as `Option.none`

The total embedding above silently totalises the two partial operations of the
source — array indexing (which panics in Rust when the index is out of range)
and `checked_add_signed(..).unwrap()` (which panics when the sum leaves the
`usize` range). The definitions below re-run the same code paths returning
`none` exactly where the source panics, so that absence of panics becomes the
provable statement `checked = some ∘ total`. -/

/-- Board::get_cell_idx (board.rs line 72), keeping the array's bounds check:
`self.cells[idx]` panics when `idx ≥ SIZE`, modelled as `none`. -/
def Board.get_cell_idx_checked (b : Board) (idx : Nat) : Option Cell :=
  b.val[idx]?

/-- Board::get_cell (board.rs line 60) with the bounds check. -/
def Board.get_cell_checked (b : Board) (x y : Nat) : Option Cell :=
  b.get_cell_idx_checked (at_pos x y)

/-- Board::set_cell_idx (board.rs line 68) with the bounds check:
`self.cells[idx] = cell` panics when `idx ≥ SIZE`, modelled as `none`. -/
def Board.set_cell_idx_checked (b : Board) (idx : Nat) (c : Cell) : Option Board :=
  if idx < SIZE then some (b.set_cell_idx idx c) else none

/-- usize::checked_add_signed(-d).unwrap() (lib.rs lines 132-133): `none`
models the panic of `unwrap` on a sum outside the `usize` range. -/
def stepBackChecked (x : Nat) (d : Int) : Option Nat :=
  if 0 ≤ (x : Int) + (-d) ∧ (x : Int) + (-d) < (2 : Int) ^ 64
  then some ((x : Int) + (-d)).toNat else none

/-- The while-opp walk of Game::is_valid_move with every cell read through the
bounds check. -/
def walkOppChecked (b : Board) (opp : Cell) (dx dy : Int) :
    Nat → Nat → Nat → Option (Nat × Nat)
  | 0, x, y => some (x, y)
  | fuel + 1, x, y =>
    match b.get_cell_checked x y with
    | none => none
    | some c =>
      if c = opp then
        let x' := wadd x dx
        let y' := wadd y dy
        if b.on_board x' y' then walkOppChecked b opp dx dy fuel x' y'
        else some (x', y')
      else some (x, y)

/-- The backtracking loop of Game::is_valid_move with the checked subtraction
kept fallible. -/
def backtrackChecked (x_init y_init : Nat) (dx dy : Int) :
    Nat → Nat → Nat → Option (List Nat)
  | 0, _, _ => some []
  | fuel + 1, x, y =>
    match stepBackChecked x dx, stepBackChecked y dy with
    | some x', some y' =>
      if x' = x_init ∧ y' = y_init then some []
      else
        match backtrackChecked x_init y_init dx dy fuel x' y' with
        | none => none
        | some rest => some (at_pos x' y' :: rest)
    | _, _ => none

/-- One direction's contribution in Game::is_valid_move with every cell read
through the bounds check (the source's `||` short-circuits, so the first probe
is only read after its on_board test passes). -/
def dirFlipsChecked (b : Board) (cur : Player) (x_init y_init : Nat)
    (dx dy : Int) : Option (List Nat) :=
  let opp := Cell.player cur.opponent
  let x := wadd x_init dx
  let y := wadd y_init dy
  if ¬ b.on_board x y then some []
  else
    match b.get_cell_checked x y with
    | none => none
    | some c =>
      if c ≠ opp then some []
      else
        let x2 := wadd x dx
        let y2 := wadd y dy
        if ¬ b.on_board x2 y2 then some []
        else
          match walkOppChecked b opp dx dy walkFuel x2 y2 with
          | none => none
          | some e =>
            if ¬ b.on_board e.1 e.2 then some []
            else
              match b.get_cell_checked e.1 e.2 with
              | none => none
              | some c2 =>
                if c2 = Cell.player cur then
                  backtrackChecked x_init y_init dx dy walkFuel e.1 e.2
                else some []

/-- Game::is_valid_move with every board access through the bounds check:
`none` marks a panic, `some r` the source's normal result `r`. -/
def Game.is_valid_move_checked (g : Game) (x_init y_init : Nat) :
    Option (Option (List Nat)) :=
  match g.board.get_cell_checked x_init y_init with
  | none => none
  | some cell =>
    if cell ≠ Cell.empty then some none
    else
      match directions.mapM
          (fun d => dirFlipsChecked g.board g.current_player x_init y_init d.1 d.2) with
      | none => none
      | some parts =>
        let tiles_to_flip := parts.flatten
        if tiles_to_flip.isEmpty then some none else some (some tiles_to_flip)

/-- Game::play_idx with every board access through the bounds check. -/
def Game.play_idx_checked (g : Game) (index : Nat) :
    Option (Except String Game) :=
  match g.is_valid_move_checked (index % WIDTH) (index / WIDTH) with
  | none => none
  | some none => some (.error "Invalid move")
  | some (some move_set) =>
    match g.board.set_cell_idx_checked index (Cell.player g.current_player) with
    | none => none
    | some board =>
      match move_set.foldlM
          (fun b idx => b.set_cell_idx_checked idx (Cell.player g.current_player))
          board with
      | none => none
      | some board =>
        some (.ok { board := board, current_player := g.current_player.opponent })

theorem Board.get_cell_checked_eq (b : Board) {x y : Nat} (hx : x < 8)
    (hy : y < 8) : b.get_cell_checked x y = some (b.get_cell x y) := by
  have hlt : at_pos x y < b.val.length := by
    rw [b.prop]; exact at_pos_lt hx hy
  unfold Board.get_cell_checked Board.get_cell_idx_checked Board.get_cell
    Board.get_cell_idx
  rw [List.getElem?_eq_getElem hlt, List.getD_eq_getElem?_getD,
    List.getElem?_eq_getElem hlt]
  rfl

theorem stepBackChecked_eq {x : Nat} {d : Int} (h0 : 0 ≤ (x : Int) + (-d))
    (h1 : (x : Int) + (-d) < (2 : Int) ^ 64) :
    stepBackChecked x d = some (stepBack x d) := by
  unfold stepBackChecked stepBack
  rw [if_pos ⟨h0, h1⟩]

/-- The while-opp walk only reads cells it has bounds-checked: on an on-board
entry state the checked walk never fails. -/
theorem walkOppChecked_eq (b : Board) (opp : Cell) (dx dy : Int) :
    ∀ (fuel x y : Nat), b.on_board x y →
      walkOppChecked b opp dx dy fuel x y =
        some (walkOpp b opp dx dy fuel x y) := by
  intro fuel
  induction fuel with
  | zero => intro x y _; rfl
  | succ fuel ih =>
    intro x y hob
    simp only [walkOppChecked, walkOpp]
    rw [Board.get_cell_checked_eq b hob.1 hob.2]
    dsimp only
    by_cases hget : b.get_cell x y = opp
    · by_cases hob' : b.on_board (wadd x dx) (wadd y dy)
      · simp [hget, hob', ih _ _ hob']
      · simp [hget, hob']
    · simp [hget]

/-- Entered at a ray step whose strictly earlier steps are all on the board,
the checked subtraction of the backtracking loop never leaves the `usize`
range: the checked loop agrees with the total one. -/
theorem backtrackChecked_eq {x0 y0 : Nat} {dx dy : Int} (_hdir : dirOK dx dy)
    (hx0 : x0 < 8) (hy0 : y0 < 8) :
    ∀ (j fuel x y : Nat), 1 ≤ j → j ≤ fuel →
      (x : Int) = ray x0 dx j → (y : Int) = ray y0 dy j →
      (∀ m, 1 ≤ m → m < j → rayOn x0 y0 dx dy m) →
      backtrackChecked x0 y0 dx dy fuel x y =
        some (backtrack x0 y0 dx dy fuel x y) := by
  intro j
  induction j with
  | zero => intro fuel x y h1; omega
  | succ j' ih =>
    intro fuel x y _ hfuel hx hy hrun
    obtain ⟨f, rfl⟩ : ∃ f, fuel = f + 1 := ⟨fuel - 1, by omega⟩
    have hxd : (x : Int) + (-dx) = ray x0 dx j' := by
      rw [hx]; unfold ray; push_cast; ring
    have hyd : (y : Int) + (-dy) = ray y0 dy j' := by
      rw [hy]; unfold ray; push_cast; ring
    have h0x : ray x0 dx 0 = (x0 : Int) := by unfold ray; simp
    have h0y : ray y0 dy 0 = (y0 : Int) := by unfold ray; simp
    have hbnd : 0 ≤ ray x0 dx j' ∧ ray x0 dx j' < 8 ∧
        0 ≤ ray y0 dy j' ∧ ray y0 dy j' < 8 := by
      by_cases hj' : j' = 0
      · subst hj'
        rw [h0x, h0y]
        refine ⟨by omega, by omega, by omega, by omega⟩
      · obtain ⟨a, b, c, d⟩ := hrun j' (by omega) (by omega)
        exact ⟨a, b, c, d⟩
    have hdp : (2 : Int) ^ 64 > 8 := by norm_num
    have hsx : stepBackChecked x dx = some (stepBack x dx) :=
      stepBackChecked_eq (by omega) (by omega)
    have hsy : stepBackChecked y dy = some (stepBack y dy) :=
      stepBackChecked_eq (by omega) (by omega)
    have hx' : (stepBack x dx : Int) = ray x0 dx j' := by
      unfold stepBack
      rw [hxd, Int.toNat_of_nonneg hbnd.1]
    have hy' : (stepBack y dy : Int) = ray y0 dy j' := by
      unfold stepBack
      rw [hyd, Int.toNat_of_nonneg hbnd.2.2.1]
    simp only [backtrackChecked, backtrack]
    rw [hsx, hsy]
    dsimp only
    by_cases horig : stepBack x dx = x0 ∧ stepBack y dy = y0
    · rw [if_pos horig, if_pos horig]
    · rw [if_neg horig, if_neg horig]
      have hj'1 : 1 ≤ j' := by
        by_contra hc
        have hj0 : j' = 0 := by omega
        subst hj0
        refine horig ⟨?_, ?_⟩
        · have : (stepBack x dx : Int) = (x0 : Int) := by rw [hx', h0x]
          exact_mod_cast this
        · have : (stepBack y dy : Int) = (y0 : Int) := by rw [hy', h0y]
          exact_mod_cast this
      rw [ih f (stepBack x dx) (stepBack y dy) hj'1 (by omega) hx' hy'
        (fun m hm1 hm2 => hrun m hm1 (by omega))]

/-- One direction's contribution with bounds checks never fails: every probe
is guarded by on_board and the backtrack is entered on a genuine ray. -/
theorem dirFlipsChecked_eq {b : Board} {cur : Player} {x0 y0 : Nat}
    {dx dy : Int} (hdir : dirOK dx dy) (hx0 : x0 < 8) (hy0 : y0 < 8) :
    dirFlipsChecked b cur x0 y0 dx dy = some (dirFlips b cur x0 y0 dx dy) := by
  have hx00 : ((x0 : Nat) : Int) = ray x0 dx 0 := by unfold ray; simp
  have hy00 : ((y0 : Nat) : Int) = ray y0 dy 0 := by unfold ray; simp
  simp only [dirFlipsChecked, dirFlips]
  by_cases hob1 : b.on_board (wadd x0 dx) (wadd y0 dy)
  · rw [if_neg (not_not_intro hob1),
      Board.get_cell_checked_eq b hob1.1 hob1.2]
    dsimp only
    by_cases hcell1 : b.get_cell (wadd x0 dx) (wadd y0 dy) =
        Cell.player cur.opponent
    · have hne1 : ¬ (b.get_cell (wadd x0 dx) (wadd y0 dy) ≠
          Cell.player cur.opponent) := not_not_intro hcell1
      have hdisj : ¬ (¬ b.on_board (wadd x0 dx) (wadd y0 dy) ∨
          b.get_cell (wadd x0 dx) (wadd y0 dy) ≠ Cell.player cur.opponent) := by
        push_neg
        exact ⟨hob1, hcell1⟩
      rw [if_neg hne1, if_neg hdisj]
      by_cases hob2 : b.on_board (wadd (wadd x0 dx) dx) (wadd (wadd y0 dy) dy)
      · have hnb2 : ¬¬ b.on_board (wadd (wadd x0 dx) dx)
            (wadd (wadd y0 dy) dy) := not_not_intro hob2
        rw [if_neg hnb2, if_neg hnb2,
          walkOppChecked_eq b (Cell.player cur.opponent) dx dy walkFuel _ _ hob2]
        dsimp only
        -- set up the ray coordinates of the walk's entry point, as in
        -- dirFlips_spec, to characterise the walk's exit point
        have hx1b : wadd x0 dx < 8 := hob1.1
        have hy1b : wadd y0 dy < 8 := hob1.2
        have hx1 : ((wadd x0 dx : Nat) : Int) = ray x0 dx 1 := by
          rcases wadd_step hdir.1 hx00 hx0 with ⟨_, h⟩ | ⟨_, h⟩
          · exact h
          · rw [h] at hx1b; norm_num at hx1b
        have hy1 : ((wadd y0 dy : Nat) : Int) = ray y0 dy 1 := by
          rcases wadd_step hdir.2.1 hy00 hy0 with ⟨_, h⟩ | ⟨_, h⟩
          · exact h
          · rw [h] at hy1b; norm_num at hy1b
        have hray1 : rayOn x0 y0 dx dy 1 := rayOn_of_coords hx1 hy1 hx1b hy1b
        have hx2b : wadd (wadd x0 dx) dx < 8 := hob2.1
        have hy2b : wadd (wadd y0 dy) dy < 8 := hob2.2
        have hx2 : ((wadd (wadd x0 dx) dx : Nat) : Int) = ray x0 dx 2 := by
          rcases wadd_step hdir.1 hx1 hx1b with ⟨_, h⟩ | ⟨_, h⟩
          · exact h
          · rw [h] at hx2b; norm_num at hx2b
        have hy2 : ((wadd (wadd y0 dy) dy : Nat) : Int) = ray y0 dy 2 := by
          rcases wadd_step hdir.2.1 hy1 hy1b with ⟨_, h⟩ | ⟨_, h⟩
          · exact h
          · rw [h] at hy2b; norm_num at hy2b
        have hfuel : dm dx (wadd (wadd x0 dx) dx) +
            dm dy (wadd (wadd y0 dy) dy) < walkFuel := by
          have h1 := dm_le (d := dx) hx2b
          have h2 := dm_le (d := dy) hy2b
          unfold walkFuel
          omega
        obtain ⟨k, hk2, hkle, hrun, hres⟩ :=
          walkOpp_spec b (Cell.player cur.opponent) hdir x0 y0 walkFuel 2
            (wadd (wadd x0 dx) dx) (wadd (wadd y0 dy) dy) hx2 hy2 hx2b hy2b hfuel
        have hkle' : k ≤ 18 := by
          have h1 := dm_le (d := dx) hx2b
          have h2 := dm_le (d := dy) hy2b
          omega
        rcases hres with ⟨honk, _, hwalk⟩ | ⟨_, hoff⟩
        · rw [hwalk]
          simp only [Prod.fst, Prod.snd]
          have hobk : b.on_board (ray x0 dx k).toNat (ray y0 dy k).toNat := by
            obtain ⟨ha, hb', hc, hd⟩ := honk
            exact ⟨(by omega : (ray x0 dx k).toNat < 8),
              (by omega : (ray y0 dy k).toNat < 8)⟩
          have hnbk : ¬¬ b.on_board (ray x0 dx k).toNat (ray y0 dy k).toNat :=
            not_not_intro hobk
          rw [if_neg hnbk, if_neg hnbk,
            Board.get_cell_checked_eq b hobk.1 hobk.2]
          dsimp only
          by_cases hcur : b.get_cell (ray x0 dx k).toNat (ray y0 dy k).toNat =
              Cell.player cur
          · rw [if_pos hcur, if_pos hcur]
            refine backtrackChecked_eq hdir hx0 hy0 k walkFuel _ _ (by omega)
              (by unfold walkFuel; omega)
              (Int.toNat_of_nonneg honk.1) (Int.toNat_of_nonneg honk.2.2.1) ?_
            intro m hm1 hm2
            rcases Nat.lt_or_ge m 2 with hm | hm
            · have hm1' : m = 1 := by omega
              subst hm1'
              exact hray1
            · exact (hrun m hm hm2).1
          · rw [if_neg hcur, if_neg hcur]
        · have hoff' : ¬ b.on_board
              (walkOpp b (Cell.player cur.opponent) dx dy walkFuel
                (wadd (wadd x0 dx) dx) (wadd (wadd y0 dy) dy)).1
              (walkOpp b (Cell.player cur.opponent) dx dy walkFuel
                (wadd (wadd x0 dx) dx) (wadd (wadd y0 dy) dy)).2 := hoff
          rw [if_pos hoff', if_pos hoff']
      · have hb2 : ¬ b.on_board (wadd (wadd x0 dx) dx)
            (wadd (wadd y0 dy) dy) := hob2
        rw [if_pos hb2, if_pos hb2]
    · have hne1 : b.get_cell (wadd x0 dx) (wadd y0 dy) ≠
          Cell.player cur.opponent := hcell1
      have hdisj : ¬ b.on_board (wadd x0 dx) (wadd y0 dy) ∨
          b.get_cell (wadd x0 dx) (wadd y0 dy) ≠ Cell.player cur.opponent :=
        Or.inr hcell1
      rw [if_pos hne1, if_pos hdisj]
  · have hdisj : ¬ b.on_board (wadd x0 dx) (wadd y0 dy) ∨
        b.get_cell (wadd x0 dx) (wadd y0 dy) ≠ Cell.player cur.opponent :=
      Or.inl hob1
    rw [if_pos hob1, if_pos hdisj]

/-- On an on-board candidate cell, the legality check performs only in-bounds
accesses and the backtracking subtractions never leave the usize range: the
checked run agrees with the total embedding. -/
theorem Game.is_valid_move_checked_eq (g : Game) {x y : Nat} (hx : x < WIDTH)
    (hy : y < HEIGHT) :
    g.is_valid_move_checked x y = some (g.is_valid_move x y) := by
  have hx8 : x < 8 := hx
  have hy8 : y < 8 := hy
  simp only [Game.is_valid_move_checked, Game.is_valid_move]
  rw [Board.get_cell_checked_eq g.board hx8 hy8]
  dsimp only
  by_cases hc : g.board.get_cell x y ≠ Cell.empty
  · rw [if_pos hc, if_pos hc]
  · rw [if_neg hc, if_neg hc]
    have hmap : directions.mapM
        (fun d => dirFlipsChecked g.board g.current_player x y d.1 d.2) =
        some (directions.map
          (fun d => dirFlips g.board g.current_player x y d.1 d.2)) := by
      refine mapM_option_eq _ _ directions ?_
      intro d hd
      exact dirFlipsChecked_eq (dirOK_of_mem (by simpa using hd)) hx8 hy8
    rw [hmap]
    simp only [← List.flatMap_def]
    by_cases he : (directions.flatMap
        (fun d => dirFlips g.board g.current_player x y d.1 d.2)).isEmpty
    · simp [he]
    · simp [he]

theorem foldlM_set_checked_eq (c : Cell) :
    ∀ (F : List Nat) (b : Board), (∀ i ∈ F, i < SIZE) →
      F.foldlM (fun b idx => b.set_cell_idx_checked idx c) b =
        some (F.foldl (fun b idx => b.set_cell_idx idx c) b) := by
  intro F
  induction F with
  | nil => intro b _; rfl
  | cons i F ih =>
    intro b hF
    rw [List.foldlM_cons, List.foldl_cons]
    unfold Board.set_cell_idx_checked
    rw [if_pos (hF i (by simp))]
    exact ih _ (fun j hj => hF j (by simp [hj]))

/-- On an index below SIZE, Game::play_idx performs only in-bounds accesses:
the checked run agrees with the total embedding. -/
theorem Game.play_idx_checked_eq (g : Game) {i : Nat} (hi : i < SIZE) :
    g.play_idx_checked i = some (g.play_idx i) := by
  have hx : i % WIDTH < WIDTH := Nat.mod_lt _ (by decide)
  have hy : i / WIDTH < HEIGHT := by
    simp only [WIDTH, HEIGHT, SIZE] at *
    omega
  simp only [Game.play_idx_checked, Game.play_idx]
  rw [Game.is_valid_move_checked_eq g hx hy]
  cases hv : g.is_valid_move (i % WIDTH) (i / WIDTH) with
  | none => rfl
  | some F =>
    dsimp only
    have hF : ∀ j ∈ F, j < SIZE :=
      fun j hj => ((Game.is_valid_move_sound hx hy hv).2.2 j hj).1
    have hset : g.board.set_cell_idx_checked i (Cell.player g.current_player) =
        some (g.board.set_cell_idx i (Cell.player g.current_player)) := by
      unfold Board.set_cell_idx_checked
      rw [if_pos hi]
    rw [hset]
    dsimp only
    rw [foldlM_set_checked_eq _ F _ hF]

/-! ### Concrete positions used to test the claims -/

/-- A near-finished position: row 0 is `--OXOOOO`, rows 1-7 are all `O`, with
Player One to move. Its only legal move is index 1. -/
def exB1 : Board :=
  ⟨[Cell.empty, Cell.empty, Cell.player Player.two, Cell.player Player.one] ++
      List.replicate 60 (Cell.player Player.two), by rfl⟩

def exG1 : Game := { board := exB1, current_player := Player.one }

/-- The position after playing index 1 in `exG1`: row 0 is `-XXXOOOO`, rows
1-7 all `O`, Player Two to move. Its only legal move, index 0, wins. -/
def exB2 : Board :=
  ⟨[Cell.empty, Cell.player Player.one, Cell.player Player.one,
      Cell.player Player.one] ++ List.replicate 60 (Cell.player Player.two),
    by rfl⟩

def exG2 : Game := { board := exB2, current_player := Player.two }

/-- A completely full board: no legal move for either player. -/
def exGfull : Game :=
  { board := ⟨List.replicate SIZE (Cell.player Player.two), by simp⟩,
    current_player := Player.one }

/-- negamax short-circuits on a position with an immediately winning move,
returning the mate-distance score computed from the occupied count of the
position BEFORE the winning ply is applied. -/
theorem negamaxFuel_succ (fuel : Nat) (g : Game) :
    negamaxFuel (fuel + 1) g =
      if g.moves.isEmpty then some (.ok 0)
      else match winCheck g g.moves with
        | .error e => some (.error e)
        | .ok true =>
          some (.ok (((SIZE : Int) + 1 - (g.total_moves : Int)).tdiv 2))
        | .ok false => bestLoop (negamaxFuel fuel) g g.moves (-(SIZE : Int)) :=
  rfl

theorem negamax_winning {g : Game} (hne : ¬ g.moves.isEmpty = true)
    (hwin : ∃ m ∈ g.moves, g.is_winning_move_idx m g.current_player = .ok true) :
    negamax g = .ok (((SIZE : Int) + 1 - (g.total_moves : Int)).tdiv 2) := by
  obtain ⟨b, hb, hiff⟩ := winCheck_spec g.moves (fun m hm => hm)
  have hbt : b = true := hiff.mpr hwin
  subst hbt
  unfold negamax
  have hsome : negamaxFuel (SIZE + 1) g =
      some (.ok (((SIZE : Int) + 1 - (g.total_moves : Int)).tdiv 2)) := by
    rw [negamaxFuel_succ SIZE g, if_neg hne, hb]
  rw [hsome]
  rfl

/-! ### The claims -/

/-- C1 (amended): solve pairs every legal move m of the root with the raw
negamax value of the successor position reached by m — the value from the
perspective of the player to move in that successor, with NO negation applied.
The original claim, that the score is the negation of negamax of the
successor (the root mover's perspective), is refuted by
`claim_C1_counterexample`. -/
theorem claim_C1 (g : Game) :
    solve g = some (g.moves.map fun m => (negamaxValue (successor g m), m)) :=
  solve_spec g

/-- C1 is false as stated: in `exG1` the only legal move 1 leads to `exG2`
whose negamax value is 1, and solve reports score 1 — not the negation -1
required by the claim's sign convention. -/
theorem claim_C1_counterexample :
    exG1.moves = [1] ∧
    exG1.play_idx 1 = .ok exG2 ∧
    negamax exG2 = .ok 1 ∧
    solve exG1 = some [(1, 1)] ∧
    (1 : Int) ≠ -1 :=
  ⟨by decide, by decide, by decide, by decide, by decide⟩

/-- C2 (amended): when some legal move of g wins immediately, negamax
short-circuits and returns (SIZE + 1 − total_moves(g)).tdiv 2 — computed from
the occupied count of g BEFORE the winning ply, not after it as the original
claim states (refuted by `claim_C2_counterexample`). `Game.total_moves` is
modelled from the spec, since `game.total_moves()` has no definition on Game
in the given sources. -/
theorem claim_C2 {g : Game} (hne : ¬ g.moves.isEmpty = true)
    (hwin : ∃ m ∈ g.moves, g.is_winning_move_idx m g.current_player = .ok true) :
    negamax g = .ok (((SIZE : Int) + 1 - (g.total_moves : Int)).tdiv 2) :=
  negamax_winning hne hwin

theorem claim_C2_witness :
    (¬ exG2.moves.isEmpty = true) ∧
    0 ∈ exG2.moves ∧
    exG2.is_winning_move_idx 0 exG2.current_player = .ok true ∧
    negamax exG2 = .ok (((SIZE : Int) + 1 - (exG2.total_moves : Int)).tdiv 2) :=
  ⟨by decide, by decide, by decide,
    claim_C2 (by decide) ⟨0, by decide, by decide⟩⟩

/-- C2 is false as stated: in `exG2` the winning ply 0 fills the board (64
occupied cells after the ply), so the claim predicts (64 + 1 − 64) / 2 = 0,
but negamax returns 1 = (64 + 1 − 63) / 2, using the occupied count before
the ply. -/
theorem claim_C2_counterexample :
    0 ∈ exG2.moves ∧
    exG2.is_winning_move_idx 0 exG2.current_player = .ok true ∧
    ((exG2.play_idx 0).toOption.map Game.total_moves) = some 64 ∧
    (((SIZE : Int) + 1 - 64).tdiv 2) = 0 ∧
    negamax exG2 = .ok 1 ∧
    (1 : Int) ≠ 0 :=
  ⟨by decide, by decide, by decide, by decide, by decide, by decide⟩

/-- C3 (amended): for indices BELOW SIZE, play_idx runs without panicking,
errors exactly when the index is not in the legal-move set, and on success
writes the placed tile and the whole flip set atomically before advancing the
player. For indices ≥ SIZE the original claim fails: the legality check
itself panics on an out-of-range read instead of returning the InvalidMove
error (refuted by `claim_C3_counterexample`). -/
theorem claim_C3 (g : Game) (i : Nat) (hi : i < SIZE) :
    g.play_idx_checked i = some (g.play_idx i) ∧
    ((∃ e, g.play_idx i = .error e) ↔ i ∉ g.moves) ∧
    (∀ g', g.play_idx i = .ok g' →
      ∃ F, g.is_valid_move (i % WIDTH) (i / WIDTH) = some F ∧
        g' = { board := F.foldl
                 (fun b idx => b.set_cell_idx idx (Cell.player g.current_player))
                 (g.board.set_cell_idx i (Cell.player g.current_player)),
               current_player := g.current_player.opponent }) := by
  refine ⟨Game.play_idx_checked_eq g hi, ?_, ?_⟩
  · rw [Game.play_idx_error_iff]
    constructor
    · intro hnone hmem
      have hs := (Game.mem_moves_idx.mp hmem).2
      rw [hnone] at hs
      simp at hs
    · intro hnmem
      cases hv : g.is_valid_move (i % WIDTH) (i / WIDTH) with
      | none => rfl
      | some F =>
        exact absurd (Game.mem_moves_idx.mpr ⟨hi, by rw [hv]; rfl⟩) hnmem
  · intro g' h
    exact Game.play_idx_ok.mp h

theorem claim_C3_witness :
    34 < SIZE ∧
    (Game.new.play_idx_checked 34 = some (Game.new.play_idx 34) ∧
    ((∃ e, Game.new.play_idx 34 = .error e) ↔ 34 ∉ Game.new.moves) ∧
    (∀ g', Game.new.play_idx 34 = .ok g' →
      ∃ F, Game.new.is_valid_move (34 % WIDTH) (34 / WIDTH) = some F ∧
        g' = { board := F.foldl
                 (fun b idx => b.set_cell_idx idx
                   (Cell.player Game.new.current_player))
                 (Game.new.board.set_cell_idx 34
                   (Cell.player Game.new.current_player)),
               current_player := Game.new.current_player.opponent })) :=
  ⟨by decide, claim_C3 Game.new 34 (by decide)⟩

/-- C3 is false as stated for out-of-range indices: index 64 is not in the
legal-move set of the opening position, yet play_idx(64) does not return the
InvalidMove error — the legality check reads cell (0, 8), i.e. array index
64, and panics. -/
theorem claim_C3_counterexample :
    64 ∉ Game.new.moves ∧ Game.new.play_idx_checked 64 = none :=
  ⟨by decide, by decide⟩

/-- C4 (amended): applying a legal move never decreases the mover's tile
count, never increases the opponent's, and increases the total occupied count
by EXACTLY 1 — not 1 + |flip set|, since all flipped cells were already
occupied (the original claim is refuted by `claim_C4_counterexample`). -/
theorem claim_C4 {g : Game} {m : Nat} {g' : Game} (hm : m ∈ g.moves)
    (h : g.play_idx m = .ok g') :
    countCell g.board (Cell.player g.current_player) ≤
      countCell g'.board (Cell.player g.current_player) ∧
    countCell g'.board (Cell.player g.current_player.opponent) ≤
      countCell g.board (Cell.player g.current_player.opponent) ∧
    g'.board.total_moves = g.board.total_moves + 1 := by
  obtain ⟨_, _, h3, h4, h5, _⟩ := Game.play_spec hm h
  exact ⟨h4, h5, h3⟩

theorem claim_C4_witness :
    34 ∈ Game.new.moves ∧
    Game.new.play_idx 34 = .ok (successor Game.new 34) ∧
    (countCell Game.new.board (Cell.player Game.new.current_player) ≤
      countCell (successor Game.new 34).board
        (Cell.player Game.new.current_player) ∧
    countCell (successor Game.new 34).board
        (Cell.player Game.new.current_player.opponent) ≤
      countCell Game.new.board (Cell.player Game.new.current_player.opponent) ∧
    (successor Game.new 34).board.total_moves =
      Game.new.board.total_moves + 1) :=
  ⟨by decide, by decide,
    @claim_C4 Game.new 34 (successor Game.new 34) (by decide) (by decide)⟩

/-- C4 is false as stated: the opening move 34 has flip set [35] (one flip),
the opening position has 4 occupied cells, and the successor has 5 — not
4 + 1 + 1 = 6 as the claim's `exactly 1 + |F|` requires, because the flipped
cell 35 was already occupied. -/
theorem claim_C4_counterexample :
    34 ∈ Game.new.moves ∧
    Game.new.is_valid_move (34 % WIDTH) (34 / WIDTH) = some [35] ∧
    Game.new.board.total_moves = 4 ∧
    ((Game.new.play_idx 34).toOption.map fun g => g.board.total_moves) =
      some 5 ∧
    (5 : Nat) ≠ 4 + (1 + 1) :=
  ⟨by decide, by decide, by decide, by decide, by decide⟩

/-- C5 (amended): moves returns exactly the legal target indices, but
enumerated by the source's `for x { for y }` loop nest in COLUMN-major order
(x outer, y inner), not row-major as claimed (refuted by
`claim_C5_counterexample`). -/
theorem claim_C5 (g : Game) :
    (∀ i, i ∈ g.moves ↔ ∃ x y, x < WIDTH ∧ y < HEIGHT ∧ i = at_pos x y ∧
      (g.is_valid_move x y).isSome) ∧
    g.moves.Pairwise (fun a b => a % WIDTH < b % WIDTH ∨
      (a % WIDTH = b % WIDTH ∧ a / WIDTH < b / WIDTH)) :=
  ⟨fun _ => Game.mem_moves, Game.moves_pairwise g⟩

/-- C5 is false as stated: the opening position's move list is
[34, 43, 20, 29], which is not in ascending (row-major) index order. -/
theorem claim_C5_counterexample :
    Game.new.moves = [34, 43, 20, 29] ∧
    ¬ Game.new.moves.Pairwise (· ≤ ·) :=
  ⟨by decide, by decide⟩

/-- C6 (amended): for every reachable position, re-parsing the GRID PART of
the Display output — the 8 rows of cells with `*` at legal moves — with
validation enabled and the same current player succeeds and reconstructs the
position exactly. The original claim, which round-trips the full Display
output, is refuted by `claim_C6_counterexample`: the header line and the
trailing empty line make from_string fail. -/
theorem claim_C6 {g : Game} (hr : Reachable g) :
    Game.from_string (displayGrid g) g.current_player true = .ok g :=
  reachable_roundtrip hr

theorem claim_C6_witness :
    Reachable Game.new ∧
    Game.from_string (displayGrid Game.new) Game.new.current_player true =
      .ok Game.new :=
  ⟨Reachable.new, claim_C6 Reachable.new⟩

/-- C6 is false as stated: the full Display output of the opening position
starts with the header line `Current player: X`, whose first character is
rejected by from_string, so the full-text round trip fails. -/
theorem claim_C6_counterexample :
    Game.from_string (displayLines Game.new) Game.new.current_player true =
      .error ("Invalid character: " ++ 'C'.toString) :=
  by decide

/-- C7: if the side to move has no legal move, negamax returns 0 regardless
of the tile counts on the board; in particular a fully-occupied board scores
0. Confirmed. -/
theorem claim_C7 (g : Game) (h : g.moves = []) : negamax g = .ok 0 := by
  have hemp : g.moves.isEmpty = true := by rw [h]; rfl
  unfold negamax
  rw [negamaxFuel_succ SIZE g, if_pos hemp]
  rfl

theorem claim_C7_witness :
    exGfull.moves = [] ∧ negamax exGfull = .ok 0 :=
  ⟨by decide, claim_C7 exGfull (by decide)⟩

/-- C8: on every board and every on-board candidate cell, the legality/flip
computation performs only in-bounds accesses and its checked subtraction
never panics: the fully bounds-checked run returns exactly the total
embedding's answer. Confirmed. -/
theorem claim_C8 (g : Game) (x y : Nat) (hx : x < WIDTH) (hy : y < HEIGHT) :
    g.is_valid_move_checked x y = some (g.is_valid_move x y) :=
  Game.is_valid_move_checked_eq g hx hy

theorem claim_C8_witness :
    2 < WIDTH ∧ 4 < HEIGHT ∧
    Game.new.is_valid_move_checked 2 4 = some (Game.new.is_valid_move 2 4) :=
  ⟨by decide, by decide, claim_C8 Game.new 2 4 (by decide) (by decide)⟩

/-- C9: negamax terminates on every Game — each recursive call is made on a
successor with strictly more occupied cells, so any fuel exceeding the number
of empty cells (at most SIZE) completes with a value, and the SIZE + 1 fuel
budget of negamax itself always suffices. Confirmed. -/
theorem claim_C9 (g : Game) (fuel : Nat)
    (h : SIZE - g.board.total_moves < fuel) :
    (∃ v, negamaxFuel fuel g = some (.ok v)) ∧ (∃ v, negamax g = .ok v) :=
  ⟨negamaxFuel_ok fuel g h, negamax_ok g⟩

theorem claim_C9_witness :
    SIZE - exGfull.board.total_moves < 1 ∧
    ((∃ v, negamaxFuel 1 exGfull = some (.ok v)) ∧
      (∃ v, negamax exGfull = .ok v)) :=
  ⟨by decide, claim_C9 exGfull 1 (by decide)⟩

/-- C10: from_string builds on the canonical opening position, not an empty
board — every cell whose character in the input is the default `*` (marker
cells, columns past the row's end, rows past the input) keeps its Game::new
value, in particular the four centre tiles unless overwritten. Confirmed. -/
theorem claim_C10 {rows : List (List Char)} {player : Player}
    {validate : Bool} {g : Game}
    (h : Game.from_string rows player validate = .ok g) :
    ∀ x y, x < WIDTH → (rows.getD y []).getD x '*' = '*' →
      g.board.get_cell x y = Game.new.board.get_cell x y :=
  from_string_preserve h

theorem claim_C10_witness :
    Game.from_string [['X']] Player.two false =
      .ok { board := Game.new.board.set_cell 0 0 (Cell.player Player.one),
            current_player := Player.two } ∧
    3 < WIDTH ∧
    (([['X']] : List (List Char)).getD 3 []).getD 3 '*' = '*' ∧
    ({ board := Game.new.board.set_cell 0 0 (Cell.player Player.one),
       current_player := Player.two } : Game).board.get_cell 3 3 =
      Game.new.board.get_cell 3 3 :=
  ⟨by decide, by decide, by decide,
    @claim_C10 [['X']] Player.two false
      { board := Game.new.board.set_cell 0 0 (Cell.player Player.one),
        current_player := Player.two }
      (by decide) 3 3 (by decide) (by decide)⟩

end Reversi
